import Mathlib

/-!
# phn: hiding one image inside another

A shallow embedding of `phn.go` (package `phn`): the per-channel arithmetic of
`Encode` and `Decode` (including the `float64` rescale, modelled bit-exactly),
the row partition computed by `parallel`, and the two pixel passes as explicit
state passing over the `Pix` buffer of an `image.RGBA`.

Conventions: a `uint8` is a `Nat` below 256 and every `uint8` operation of the
source is written with its explicit `% 256`; a Go `int` is an `Int` (the image
sizes in play are far below the 64-bit range, so no wraparound is modelled for
`int`).
-/

namespace Phn

/-! ## `uint8` arithmetic -/

/-- The Go expression `a + b` on `uint8` operands. -/
def u8add (a b : Nat) : Nat := (a + b) % 256

/-- The Go expression `a - b` on `uint8` operands (both below 256). -/
def u8sub (a b : Nat) : Nat := (a + 256 - b) % 256

/-! ## `float64` arithmetic

A finite non-negative `float64` is kept as the exact fraction `num / den`, `den`
a power of two.  The two operations the source uses, `/` and `*`, are the IEEE-754
binary64 operations: the exact quotient or product rounded to a 53-bit
significand, ties to even.  The model is exact for quotients and products `q` with
`2 ^ (-75) < q < 2 ^ 53`; every value the program computes from its `uint8` inputs
lies well inside (the smallest non-zero one is `1 / 255`).

The body is written with the primitive functions of `Nat` (`Nat.mul`, `Nat.ble`,
`cond`, ...) so that it evaluates quickly. -/

/-- A finite non-negative binary64 value, `num / den`. -/
structure F64 where
  num : Nat
  den : Nat

namespace F64

/-- One smearing step: sets every bit that has a set bit `s` places above it. -/
def sm (s n : Nat) : Nat := Nat.lor n (Nat.shiftRight n s)

/-- The least power of two strictly above `n` (for `n < 2 ^ 128`): all bits below
the leading one are set, then one is added. -/
def pow2Above (n : Nat) : Nat :=
  Nat.succ (sm 64 (sm 32 (sm 16 (sm 8 (sm 4 (sm 2 (sm 1 n)))))))

/-- The power of two `s` with `2 ^ 52 ≤ a * s / b < 2 ^ 53`, for `a, b > 0`: the
least power of two that is at least `2 ^ 52 * b / a`, that is, strictly above
`(2 ^ 52 * b - 1) / a` rounded down. -/
def scale (a b : Nat) : Nat :=
  pow2Above (Nat.div (Nat.sub (Nat.mul 4503599627370496 b) 1) a)

/-- Rounds `q + r / b` (`r < b`) to the nearest integer, ties to the even one. -/
def rne2 (b q r : Nat) : Nat :=
  cond (Nat.ble b (Nat.mul 2 r))
    (cond (Nat.ble (Nat.mul 2 r) b) (Nat.add q (Nat.mod q 2)) (Nat.succ q))
    q

/-- Rounds the fraction `a / b` to the nearest integer, ties to even. -/
def rne (a b : Nat) : Nat := rne2 b (Nat.div a b) (Nat.mod a b)

/-- The significand of `a / b` at scale `s`, as the value `rne (a * s / b) / s`. -/
def roundW (a b s : Nat) : F64 := ⟨rne (Nat.mul a s) b, s⟩

/-- The binary64 value nearest to the fraction `a / b` (round to nearest, ties to
even). -/
def round (a b : Nat) : F64 :=
  cond (Nat.beq a 0) ⟨0, 1⟩ (roundW a b (scale a b))

/-- The conversion `float64(n)` of an integer below `2 ^ 53`: exact. -/
def ofNat (n : Nat) : F64 := ⟨n, 1⟩

/-- The `float64` quotient `x / y`, `y` non-zero. -/
def div (x y : F64) : F64 := round (Nat.mul x.num y.den) (Nat.mul y.num x.den)

/-- The `float64` product `x * y`. -/
def mul (x y : F64) : F64 := round (Nat.mul x.num y.num) (Nat.mul x.den y.den)

/-- The integer part of `x`. -/
def trunc (x : F64) : Nat := Nat.div x.num x.den

/-- The conversion `uint8(x)`: the integer part when it fits in 8 bits.  For a
larger value Go leaves the result to the implementation; the model takes the low
8 bits of the integer part, which is what the amd64 compiler produces. -/
def toUint8 (x : F64) : Nat := Nat.mod (trunc x) 256

end F64

/-! ## Channel arithmetic of `Encode` and `Decode` -/

/-- The closure `level` of `Encode`:
`uint8((float64(n)/255.0)*float64(high-low)) + low`. -/
def Encode.level (n low high : Nat) : Nat :=
  u8add (F64.toUint8 (F64.mul (F64.div (F64.ofNat n) (F64.ofNat 255)) (F64.ofNat (u8sub high low)))) low

/-- The closure `calc` of `Encode` for colour depth `depth`; `coin` is the outcome
of the test `rand.Float64() >= 0.5`, consulted only when the third branch is
reached.  `sp` is the visible byte and `hp` the hidden byte. -/
def Encode.calc (depth : Nat) (coin : Bool) (sp hp : Nat) : Nat :=
  let hp := Encode.level hp 0 depth
  if u8sub 255 hp < sp then u8sub sp hp
  else if hp > sp then u8add sp hp
  else if coin then u8sub sp hp
  else u8add sp hp

/-- The closure `abs` of `Decode`: `uint8(-a)` for negative `a`, `uint8(a)`
otherwise. -/
def Decode.abs (a : Int) : Nat :=
  if a < 0 then (-a).toNat % 256 else a.toNat % 256

/-- The closure `level` of `Decode`, which captures the (effective) `depth`:
`uint8((float64(n)/float64(depth))*float64(high-low)) + low`. -/
def Decode.level (depth : Nat) (n low high : Nat) : Nat :=
  u8add (F64.toUint8 (F64.mul (F64.div (F64.ofNat n) (F64.ofNat depth)) (F64.ofNat (u8sub high low)))) low

/-! ## Images

The Go types `image.Point`, `image.Rectangle`, `image.RGBA` and the part of the
interface `image.Image` that `draw.Draw` consults. -/

/-- The Go type `image.Point`. -/
structure Point where
  X : Int
  Y : Int

/-- The Go type `image.Rectangle`: the points with `Min.X ≤ x < Max.X` and
`Min.Y ≤ y < Max.Y`. -/
structure Rectangle where
  Min : Point
  Max : Point

/-- The method `Rectangle.Dx`. -/
def Rectangle.Dx (r : Rectangle) : Int := r.Max.X - r.Min.X

/-- The method `Rectangle.Dy`. -/
def Rectangle.Dy (r : Rectangle) : Int := r.Max.Y - r.Min.Y

/-- The method `Rectangle.Empty`. -/
def Rectangle.Empty (r : Rectangle) : Bool :=
  decide (r.Min.X ≥ r.Max.X) || decide (r.Min.Y ≥ r.Max.Y)

/-- Whether the point `(x, y)` lies in `r`. -/
def Rectangle.Has (r : Rectangle) (x y : Int) : Bool :=
  decide (r.Min.X ≤ x) && decide (x < r.Max.X) && decide (r.Min.Y ≤ y) && decide (y < r.Max.Y)

/-- What `Color.RGBA()` returns: alpha-premultiplied 16-bit components. -/
structure Color where
  R : Nat
  G : Nat
  B : Nat
  A : Nat

/-- Component `c` (0 red, 1 green, 2 blue, otherwise alpha) of a colour. -/
def Color.chan (k : Color) (c : Nat) : Nat :=
  if c = 0 then k.R else if c = 1 then k.G else if c = 2 then k.B else k.A

/-- The interface `image.Image`, as far as `draw.Draw` reads it: the bounds and
the colour `At(x, y).RGBA()` of each point. -/
structure Image where
  Bounds : Rectangle
  At : Int → Int → Color

/-- The Go type `image.RGBA`: `Pix` holds the bytes R, G, B, A of the pixel
`(x, y)` from index `(y - Rect.Min.Y) * Stride + (x - Rect.Min.X) * 4` on. -/
structure RGBA where
  Pix : List Nat
  Stride : Int
  Rect : Rectangle

/-- The value `image.RGBA{}`: no pixel data, stride 0, the zero rectangle. -/
def RGBA.zero : RGBA := ⟨[], 0, ⟨⟨0, 0⟩, ⟨0, 0⟩⟩⟩

/-- The function `image.NewRGBA`: a zero-filled buffer of `4 * w * h` bytes with
stride `4 * w`. -/
def NewRGBA (r : Rectangle) : RGBA :=
  ⟨List.replicate (4 * r.Dx * r.Dy).toNat 0, 4 * r.Dx, r⟩

/-- Reading `pix[i]`. -/
def pixGet (pix : List Nat) (i : Int) : Nat := pix.getD i.toNat 0

/-- The assignment `pix[i] = v`. -/
def pixSet (pix : List Nat) (i : Int) (v : Nat) : List Nat := pix.set i.toNat v

/-- The byte `draw.Draw` stores for a 16-bit colour component: `uint8(c >> 8)`. -/
def toByte (c : Nat) : Nat := (c / 256) % 256

/-- The call `draw.Draw(dst, r, src, r.Min, draw.Src)` of the standard library, on
a destination with `Stride = 4 * Rect.Dx()`: every point of `r` that lies in both
`dst.Rect` and `src.Bounds` receives the colour of `src` at the same point, the
other bytes of `dst` are kept.  Byte `i` of `Pix` belongs to the point
`(Min.X + i % Stride / 4, Min.Y + i / Stride)`, component `i % 4`. -/
def drawSrc (dst : RGBA) (r : Rectangle) (src : Image) : RGBA :=
  { dst with
    Pix := (List.range dst.Pix.length).map (fun (i : Nat) =>
      let x := dst.Rect.Min.X + ((i : Nat) : Int) % dst.Stride / 4
      let y := dst.Rect.Min.Y + ((i : Nat) : Int) / dst.Stride
      if r.Has x y && dst.Rect.Has x y && src.Bounds.Has x y
      then toByte ((src.At x y).chan (i % 4))
      else dst.Pix.getD i 0) }

/-- The function `cloneAsRGBA`. -/
def cloneAsRGBA (src : Image) : RGBA :=
  let bounds := src.Bounds
  let img := NewRGBA bounds
  drawSrc img bounds src

/-- The function `cloneWithBounds`. -/
def cloneWithBounds (src : Image) (bounds : Rectangle) : RGBA :=
  let img := NewRGBA bounds
  drawSrc img bounds src

/-- An `*image.RGBA` seen through the interface `image.Image`: `At(x, y)` is the
stored pixel inside `Rect` and the zero colour outside, and `RGBA()` widens each
byte `b` to `b * 0x101`. -/
def RGBA.toImage (p : RGBA) : Image :=
  { Bounds := p.Rect
    At := fun x y =>
      if p.Rect.Has x y then
        let i := (y - p.Rect.Min.Y) * p.Stride + (x - p.Rect.Min.X) * 4
        ⟨pixGet p.Pix (i + 0) * 257, pixGet p.Pix (i + 1) * 257,
         pixGet p.Pix (i + 2) * 257, pixGet p.Pix (i + 3) * 257⟩
      else ⟨0, 0, 0, 0⟩ }

/-! ## The row-parallel executor -/

/-- The counted loop `for v := lo; v < hi; v++ { body }` over a state. -/
def forLoop {σ : Type} (lo hi : Int) (body : Int → σ → σ) (st : σ) : σ :=
  (List.range (hi - lo).toNat).foldl (fun s (k : Nat) => body (lo + (k : Int)) s) st

/-- The loop `for i := height; i > 0; i -= partSize` of `parallel`, from the
current value `i`: the `(start, end)` pairs handed to `fn`, in dispatch order.
`fuel` bounds the number of iterations. -/
def parallel.loop (partSize : Int) : Nat → Int → List (Int × Int)
  | 0, _ => []
  | fuel + 1, i =>
    if i > 0 then
      let start := i - partSize
      let end_ := i
      let start := if start < 0 then 0 else start
      (start, end_) :: parallel.loop partSize fuel (i - partSize)
    else []

/-- The `(start, end)` pairs on which `parallel` calls `fn`, for
`procs = runtime.GOMAXPROCS(0)`.  The loop runs with fuel `height`, which it never
exhausts since each iteration lowers `i` by `partSize ≥ procs ≥ 2`. -/
def parallel.ranges (procs height : Int) : List (Int × Int) :=
  let partSize := Int.tdiv height procs
  if procs ≤ 1 ∨ partSize < procs then [(0, height)]
  else parallel.loop partSize height.toNat height

/-- Whether row `y` lies in the half-open range `r = (start, end)`. -/
def inRange (y : Int) (r : Int × Int) : Bool := decide (r.1 ≤ y) && decide (y < r.2)

/-- The function `parallel` over an explicit state: `fn` is run on every range.
The goroutines are run one after the other, in dispatch order; they write disjoint
rows, so any other schedule produces the same state. -/
def parallel {σ : Type} (procs height : Int) (fn : Int → Int → σ → σ) (st : σ) : σ :=
  (parallel.ranges procs height).foldl (fun s r => fn r.1 r.2 s) st

/-! ## Encode and Decode -/

/-- The body of the inner loop of `Encode` at offset `pos`.  `coin i` is the
outcome of the random draw made, if any, while computing byte `i`. -/
def Encode.pixel (depth : Nat) (coin : Nat → Bool) (src hid : RGBA) (pos : Int)
    (dst : List Nat) : List Nat :=
  let dst := pixSet dst (pos + 0)
    (Encode.calc depth (coin (pos + 0).toNat) (pixGet src.Pix (pos + 0)) (pixGet hid.Pix (pos + 0)))
  let dst := pixSet dst (pos + 1)
    (Encode.calc depth (coin (pos + 1).toNat) (pixGet src.Pix (pos + 1)) (pixGet hid.Pix (pos + 1)))
  let dst := pixSet dst (pos + 2)
    (Encode.calc depth (coin (pos + 2).toNat) (pixGet src.Pix (pos + 2)) (pixGet hid.Pix (pos + 2)))
  pixSet dst (pos + 3) (pixGet src.Pix (pos + 3))

/-- The per-pixel pass of `Encode`: the `Pix` of `dst` after `parallel` returns. -/
def Encode.pass (procs : Int) (depth : Nat) (coin : Nat → Bool) (src hid : RGBA)
    (srcW srcH : Int) (dst : List Nat) : List Nat :=
  parallel procs srcH (fun start end_ pix =>
    forLoop start end_ (fun y pix =>
      forLoop 0 srcW (fun x pix =>
        Encode.pixel depth coin src hid (y * src.Stride + x * 4) pix) pix) pix) dst

/-- The function `Encode`.  `procs` is `runtime.GOMAXPROCS(0)`, `coin` gives the
outcome of the random draw of each byte of the per-pixel pass and `mcoin` that of
the draw of the depth pixel. -/
def Encode (procs : Int) (coin : Nat → Bool) (mcoin : Bool) (source hidden : Image)
    (depth : Nat) : RGBA :=
  let src := cloneAsRGBA source
  let sbounds := src.Rect
  let srcW := sbounds.Dx
  let srcH := sbounds.Dy
  if sbounds.Empty then RGBA.zero
  else
    let hid := cloneWithBounds hidden sbounds
    let dst := NewRGBA sbounds
    let pix := Encode.pass procs depth coin src hid srcW srcH dst.Pix
    let pos := (srcH - 1) * src.Stride + (srcW - 1) * 4
    { dst with Pix := pixSet pix (pos + 0) (Encode.calc depth mcoin (pixGet src.Pix (pos + 0)) 255) }

/-- The depth `Decode` works with: the argument when it is not 0, otherwise the
difference of the red bytes of the bottom-right pixel, or 10 when they agree. -/
def Decode.depthOf (enc src : RGBA) (encW encH : Int) (depth : Nat) : Nat :=
  if depth = 0 then
    let pos := (encH - 1) * src.Stride + (encW - 1) * 4
    let depth := Decode.abs ((pixGet src.Pix (pos + 0) : Int) - (pixGet enc.Pix (pos + 0) : Int))
    if depth = 0 then 10 else depth
  else depth

/-- The body of the inner loop of `Decode` at offset `pos`, for the effective
depth `depth`. -/
def Decode.pixel (depth : Nat) (enc src : RGBA) (pos : Int) (dst : List Nat) : List Nat :=
  let dst := pixSet dst (pos + 0)
    (Decode.level depth (Decode.abs ((pixGet src.Pix (pos + 0) : Int) - (pixGet enc.Pix (pos + 0) : Int))) 0 255)
  let dst := pixSet dst (pos + 1)
    (Decode.level depth (Decode.abs ((pixGet src.Pix (pos + 1) : Int) - (pixGet enc.Pix (pos + 1) : Int))) 0 255)
  let dst := pixSet dst (pos + 2)
    (Decode.level depth (Decode.abs ((pixGet src.Pix (pos + 2) : Int) - (pixGet enc.Pix (pos + 2) : Int))) 0 255)
  pixSet dst (pos + 3) (pixGet src.Pix (pos + 3))

/-- The per-pixel pass of `Decode`. -/
def Decode.pass (procs : Int) (depth : Nat) (enc src : RGBA) (encW encH : Int)
    (dst : List Nat) : List Nat :=
  parallel procs encH (fun start end_ pix =>
    forLoop start end_ (fun y pix =>
      forLoop 0 encW (fun x pix =>
        Decode.pixel depth enc src (y * enc.Stride + x * 4) pix) pix) pix) dst

/-- The function `Decode`; `procs` is `runtime.GOMAXPROCS(0)`. -/
def Decode (procs : Int) (encoded source : Image) (depth : Nat) : RGBA :=
  let enc := cloneAsRGBA encoded
  let ebounds := enc.Rect
  let encW := ebounds.Dx
  let encH := ebounds.Dy
  if ebounds.Empty then RGBA.zero
  else
    let src := cloneWithBounds source ebounds
    let dst := NewRGBA ebounds
    let depth := Decode.depthOf enc src encW encH depth
    { dst with Pix := Decode.pass procs depth enc src encW encH dst.Pix }

/-! ## Specification vocabulary -/

/-- The buffer transformer `T` stores `val i` at every index `i` of `S` that the
buffer has, keeps every other byte, and keeps the length. -/
def Writes (T : List Nat → List Nat) (S : Nat → Prop) (val : Nat → Nat) : Prop :=
  ∀ a : List Nat, (T a).length = a.length ∧
    ∀ i, (S i → i < a.length → (T a)[i]? = some (val i)) ∧ (¬ S i → (T a)[i]? = a[i]?)

/-- The byte the per-pixel pass of `Encode` stores at index `i`: the source byte
at an alpha position, the result of `calc` elsewhere. -/
def Encode.byteAt (depth : Nat) (coin : Nat → Bool) (src hid : RGBA) (i : Nat) : Nat :=
  if i % 4 = 3 then src.Pix.getD i 0
  else Encode.calc depth (coin i) (src.Pix.getD i 0) (hid.Pix.getD i 0)

/-- The byte the per-pixel pass of `Decode` stores at index `i`, for the effective
depth `depth`. -/
def Decode.byteAt (depth : Nat) (enc src : RGBA) (i : Nat) : Nat :=
  if i % 4 = 3 then src.Pix.getD i 0
  else Decode.level depth (Decode.abs ((src.Pix.getD i 0 : Int) - (enc.Pix.getD i 0 : Int))) 0 255

/-- The index of the red byte of the bottom-right pixel in a buffer of width `w`
and height `h` with stride `4 * w`. -/
def markerIndex (w h : Int) : Nat := ((h - 1) * (4 * w) + (w - 1) * 4 + 0).toNat

/-- The red byte of the bottom-right pixel of an image, as `cloneAsRGBA` stores
it. -/
def markerRed (s : Image) : Nat :=
  toByte (s.At (s.Bounds.Max.X - 1) (s.Bounds.Max.Y - 1)).R

/-- A 1x1 image whose pixel is `(100, 0, 0, 255)`. -/
def onePixel : Image := ⟨⟨⟨0, 0⟩, ⟨1, 1⟩⟩, fun _ _ => ⟨100 * 257, 0, 0, 255 * 257⟩⟩

/-- A 1x1 image whose pixel is `(100, 100, 100, 255)`. -/
def grayPixel : Image := ⟨⟨⟨0, 0⟩, ⟨1, 1⟩⟩, fun _ _ => ⟨100 * 257, 100 * 257, 100 * 257, 255 * 257⟩⟩

/-- A 1x1 image whose pixel is `(139, 139, 139, 255)`. -/
def hiddenPixel : Image := ⟨⟨⟨0, 0⟩, ⟨1, 1⟩⟩, fun _ _ => ⟨139 * 257, 139 * 257, 139 * 257, 255 * 257⟩⟩

/-- The 2x2 source of the worked scenario: every pixel is `(128, 128, 128, 255)`. -/
def graySource : Image :=
  ⟨⟨⟨0, 0⟩, ⟨2, 2⟩⟩, fun _ _ => ⟨128 * 257, 128 * 257, 128 * 257, 255 * 257⟩⟩

/-- The 2x2 hidden image of the worked scenario: every pixel is
`(255, 255, 255, 255)`. -/
def whiteHidden : Image :=
  ⟨⟨⟨0, 0⟩, ⟨2, 2⟩⟩, fun _ _ => ⟨255 * 257, 255 * 257, 255 * 257, 255 * 257⟩⟩

/-- A 2x2 hidden image whose pixels are all `(0, 0, 0, 255)`. -/
def blackHidden : Image :=
  ⟨⟨⟨0, 0⟩, ⟨2, 2⟩⟩, fun _ _ => ⟨0, 0, 0, 255 * 257⟩⟩

/-- A 2x2 image that agrees with `graySource` except at the top-left pixel, whose
red byte is 178 instead of 128. -/
def topLeftMarked : Image :=
  ⟨⟨⟨0, 0⟩, ⟨2, 2⟩⟩, fun x y =>
    if x = 0 ∧ y = 0 then ⟨178 * 257, 128 * 257, 128 * 257, 255 * 257⟩
    else ⟨128 * 257, 128 * 257, 128 * 257, 255 * 257⟩⟩

/-- An image with no pixels: zero width and zero height. -/
def noPixels : Image := ⟨⟨⟨0, 0⟩, ⟨0, 0⟩⟩, fun _ _ => ⟨0, 0, 0, 0⟩⟩

/-- The result of `calc` before it is narrowed to a byte: the sum or difference
of `sp` and the perturbation as an unbounded integer, with the branches of
`Encode.calc`. -/
def Encode.calcInt (depth : Nat) (coin : Bool) (sp hp : Nat) : Int :=
  let hp := Encode.level hp 0 depth
  if u8sub 255 hp < sp then (sp : Int) - (hp : Int)
  else if hp > sp then (sp : Int) + (hp : Int)
  else if coin then (sp : Int) - (hp : Int)
  else (sp : Int) + (hp : Int)

/-- The expression `256 / d` rounded to the nearest integer. -/
def quantStep (d : Nat) : Nat := (512 + d) / (2 * d)

/-! ## Exhaustive evaluation over bytes -/

/-- Conjunction of `p 0, ..., p (n - 1)`. -/
def allBelow (n : Nat) (p : Nat → Bool) : Bool :=
  match n with
  | 0 => true
  | k + 1 => p k && allBelow k p

/-- The pairs `(h, d)` of bytes at which the `float64` rescale of `Encode.level`
falls one short of the exact quotient `h * d / 255`: the quotient is an integer
there and the rounded product lies just below it. -/
def levelSlipList (h d : Nat) : Bool :=
  (Nat.beq h 147 && (Nat.beq d 85 || Nat.beq d 170)) ||
  (Nat.beq h 155 && (Nat.beq d 51 || Nat.beq d 102 || Nat.beq d 153 || Nat.beq d 204)) ||
  (Nat.beq h 171 && (Nat.beq d 85 || Nat.beq d 170)) ||
  (Nat.beq h 187 && (Nat.beq d 75 || Nat.beq d 150 || Nat.beq d 165)) ||
  (Nat.beq h 195 && Nat.beq d 153)

/-- Membership in `levelSlipList`, tested only where `255` divides `h * d`. -/
def levelSlip (h d : Nat) : Bool :=
  cond (Nat.beq (Nat.mod (Nat.mul h d) 255) 0) (levelSlipList h d) false

/-- The value of `Encode.level h 0 d` in integer arithmetic. -/
def levelNat (h d : Nat) : Nat := Nat.sub (Nat.div (Nat.mul h d) 255) (cond (levelSlip h d) 1 0)

/-! ## Evaluation of the two rescales over all bytes -/

theorem allBelow_spec (n : Nat) (p : Nat → Bool) (h : allBelow n p = true) :
    ∀ i, i < n → p i = true := by
  induction n with
  | zero => intro i hi; omega
  | succ k ih =>
    simp only [allBelow, Bool.and_eq_true] at h
    intro i hi
    rcases Nat.lt_succ_iff_lt_or_eq.mp hi with h1 | h1
    · exact ih h.2 i h1
    · subst h1; exact h.1

set_option maxRecDepth 100000 in
theorem encode_level_table :
    allBelow 256 (fun h => allBelow 256 (fun d =>
      Nat.beq (Encode.level h 0 d) (levelNat h d))) = true := by
  decide!

set_option maxRecDepth 100000 in
theorem decode_level_table :
    allBelow 255 (fun d => allBelow (Nat.succ (Nat.succ d)) (fun n =>
      Nat.beq (Decode.level (Nat.succ d) n 0 255) (Nat.div (Nat.mul n 255) (Nat.succ d)))) = true := by
  decide!

/-- Two values of the `float64` model against the IEEE-754 doubles they stand for:
`1.0 / 255.0` is `282578800148737 / 2 ^ 56`, and `(147.0 / 255.0) * 85.0` is
`6896136929411071 / 2 ^ 47`, just below 49, so that `level(147, 0, 85)` is 48. -/
theorem f64_examples :
    (F64.div (F64.ofNat 1) (F64.ofNat 255)).num * 2 ^ 56
      = 282578800148737 * (F64.div (F64.ofNat 1) (F64.ofNat 255)).den ∧
    (F64.mul (F64.div (F64.ofNat 147) (F64.ofNat 255)) (F64.ofNat 85)).num * 2 ^ 47
      = 6896136929411071
        * (F64.mul (F64.div (F64.ofNat 147) (F64.ofNat 255)) (F64.ofNat 85)).den ∧
    Encode.level 147 0 85 = 48 ∧ 147 * 85 / 255 = 49 := by
  decide

/-- On bytes, `Encode.level h 0 d` is `h * d / 255`, less one at the pairs of
`levelSlip`. -/
theorem encode_level_eq (h d : Nat) (hh : h < 256) (hd : d < 256) :
    Encode.level h 0 d = h * d / 255 - (if levelSlip h d then 1 else 0) := by
  have h1 := allBelow_spec 256 _ (allBelow_spec 256 _ encode_level_table h hh) d hd
  have h2 := Nat.eq_of_beq_eq_true h1
  rw [h2]
  unfold levelNat
  cases levelSlip h d <;> rfl

/-- For a depth in `1..255` and a difference `n ≤ depth`, `Decode.level depth n 0 255`
is `n * 255 / depth`. -/
theorem decode_level_eq (depth n : Nat) (hn : n ≤ depth) (h0 : 0 < depth) (hd : depth < 256) :
    Decode.level depth n 0 255 = n * 255 / depth := by
  obtain ⟨d, rfl⟩ : ∃ d, depth = d + 1 := ⟨depth - 1, by omega⟩
  have h1 := allBelow_spec _ _ (allBelow_spec 255 _ decode_level_table d (by omega)) n (by omega)
  exact Nat.eq_of_beq_eq_true h1

/-! ## Facts about the channel arithmetic -/

theorem u8add_lt (a b : Nat) : u8add a b < 256 := by
  unfold u8add; omega

theorem u8sub_lt (a b : Nat) : u8sub a b < 256 := by
  unfold u8sub; omega

theorem encode_level_lt (n low high : Nat) : Encode.level n low high < 256 :=
  u8add_lt _ _

theorem decode_level_lt (depth n low high : Nat) : Decode.level depth n low high < 256 :=
  u8add_lt _ _

theorem levelSlip_dvd (h d : Nat) (hs : levelSlip h d = true) : h * d % 255 = 0 := by
  unfold levelSlip at hs
  cases hb : Nat.beq (Nat.mod (Nat.mul h d) 255) 0
  · rw [hb] at hs; simp at hs
  · exact Nat.eq_of_beq_eq_true hb

/-- The perturbation `p = Encode.level h 0 d` satisfies
`255 * p ≤ h * d ≤ 255 * p + 255`. -/
theorem encode_level_bounds (h d : Nat) (hh : h < 256) (hd : d < 256) :
    255 * Encode.level h 0 d ≤ h * d ∧ h * d ≤ 255 * Encode.level h 0 d + 255 := by
  rw [encode_level_eq h d hh hd]
  cases hs : levelSlip h d
  · simp only [Bool.false_eq_true, if_false]
    omega
  · have := levelSlip_dvd h d hs
    simp only [if_true]
    omega

theorem encode_level_le (h d : Nat) (hh : h < 256) (hd : d < 256) :
    Encode.level h 0 d ≤ d := by
  have h1 := (encode_level_bounds h d hh hd).1
  have h2 : h * d ≤ 255 * d := Nat.mul_le_mul_right d (by omega)
  omega

theorem encode_level_le_exact (h d : Nat) (hh : h < 256) (hd : d < 256) :
    Encode.level h 0 d ≤ h * d / 255 := by
  have h1 := (encode_level_bounds h d hh hd).1
  omega

theorem encode_level_255 (d : Nat) (hd : d < 256) : Encode.level 255 0 d = d := by
  have h1 := encode_level_eq 255 d (by omega) hd
  have h2 : levelSlip 255 d = false := by
    unfold levelSlip
    cases Nat.beq (Nat.mod (Nat.mul 255 d) 255) 0 <;> rfl
  rw [h2] at h1
  simp only [Bool.false_eq_true, if_false] at h1
  omega

theorem decode_abs_sub (s e : Nat) (hs : s < 256) (he : e < 256) :
    Decode.abs ((s : Int) - (e : Int)) = if s ≤ e then e - s else s - e := by
  unfold Decode.abs
  split_ifs <;> omega

/-- The byte `calc` returns, by cases, in integer arithmetic. -/
theorem encode_calc_eq (depth : Nat) (coin : Bool) (s h : Nat) (hs : s < 256) :
    Encode.calc depth coin s h =
      if 255 - Encode.level h 0 depth < s then
        (if Encode.level h 0 depth ≤ s then s - Encode.level h 0 depth
         else s + 256 - Encode.level h 0 depth)
      else if s < Encode.level h 0 depth then s + Encode.level h 0 depth
      else if coin then s - Encode.level h 0 depth
      else s + Encode.level h 0 depth := by
  have hp := encode_level_lt h 0 depth
  unfold Encode.calc u8sub u8add
  generalize Encode.level h 0 depth = p at hp ⊢
  simp only []
  split_ifs <;> omega

theorem encode_calc_lt (depth : Nat) (coin : Bool) (s h : Nat) :
    Encode.calc depth coin s h < 256 := by
  unfold Encode.calc
  simp only []
  split_ifs <;> first | exact u8add_lt _ _ | exact u8sub_lt _ _

/-! ## The partition computed by `parallel` -/

/-- Whether row `y` lies in the half-open range `r = (start, end)`. -/
theorem inRange_iff (r : Int × Int) (y : Int) :
    inRange y r = true ↔ r.1 ≤ y ∧ y < r.2 := by
  unfold inRange
  simp

theorem parallel_loop_mem (ps : Int) (hps : 0 < ps) :
    ∀ (fuel : Nat) (i : Int) (r : Int × Int), r ∈ parallel.loop ps fuel i →
      0 ≤ r.1 ∧ r.1 < r.2 ∧ r.2 ≤ i := by
  intro fuel
  induction fuel with
  | zero => intro i r hr; simp [parallel.loop] at hr
  | succ f ih =>
    intro i r hr
    unfold parallel.loop at hr
    split_ifs at hr with hi
    · simp only [List.mem_cons] at hr
      rcases hr with h | h
      · subst h
        simp only []
        split_ifs <;> omega
      · have := ih (i - ps) r h
        omega
    · simp at hr

theorem parallel_loop_count (ps : Int) (hps : 0 < ps) :
    ∀ (fuel : Nat) (i : Int), i.toNat ≤ fuel → ∀ y : Int,
      (parallel.loop ps fuel i).countP (inRange y) = if 0 ≤ y ∧ y < i then 1 else 0 := by
  intro fuel
  induction fuel with
  | zero =>
    intro i hi y
    have : ¬ (0 ≤ y ∧ y < i) := by omega
    simp [parallel.loop, this]
  | succ f ih =>
    intro i hi y
    unfold parallel.loop
    by_cases h0 : i > 0
    · rw [if_pos h0]
      simp only []
      rw [List.countP_cons, ih (i - ps) (by omega) y]
      by_cases hy : inRange y (if i - ps < 0 then 0 else i - ps, i) = true
      · have h2 := (inRange_iff _ _).mp hy
        simp only [] at h2
        have hA : ¬ (0 ≤ y ∧ y < i - ps) := by split_ifs at h2 <;> omega
        have hB : 0 ≤ y ∧ y < i := by split_ifs at h2 <;> omega
        rw [if_pos hy, if_neg hA, if_pos hB]
      · have hn : ¬ ((if i - ps < 0 then 0 else i - ps) ≤ y ∧ y < i) := fun hc =>
          hy ((inRange_iff (_, _) y).mpr hc)
        by_cases hB : 0 ≤ y ∧ y < i
        · have hA : 0 ≤ y ∧ y < i - ps := by split_ifs at hn <;> omega
          rw [if_neg hy, if_pos hA, if_pos hB]
        · have hA : ¬ (0 ≤ y ∧ y < i - ps) := by omega
          rw [if_neg hy, if_neg hA, if_neg hB]
    · rw [if_neg h0]
      have hB : ¬ (0 ≤ y ∧ y < i) := by omega
      rw [if_neg hB]
      rfl

theorem parallel_loop_sorted (ps : Int) (hps : 0 < ps) :
    ∀ (fuel : Nat) (i : Int),
      (parallel.loop ps fuel i).Pairwise (fun r s => s.2 ≤ r.1) := by
  intro fuel
  induction fuel with
  | zero => intro i; simp [parallel.loop]
  | succ f ih =>
    intro i
    unfold parallel.loop
    split_ifs with hi
    · refine List.Pairwise.cons ?_ (ih (i - ps))
      intro s hs
      have := parallel_loop_mem ps hps f (i - ps) s hs
      simp only []
      split_ifs <;> omega
    · exact List.Pairwise.nil

/-- The part size `parallel` loops with is positive. -/
theorem parallel_partSize_pos (procs height : Int)
    (h : ¬ (procs ≤ 1 ∨ Int.tdiv height procs < procs)) : 0 < Int.tdiv height procs := by
  omega

theorem parallel_ranges_count (procs height : Int) (y : Int) :
    (parallel.ranges procs height).countP (inRange y) = if 0 ≤ y ∧ y < height then 1 else 0 := by
  unfold parallel.ranges
  simp only []
  split_ifs with h h1 h1
  · simp [List.countP_cons, (inRange_iff (0, height) y).mpr h1]
  · have : ¬ inRange y (0, height) = true := fun hc => h1 ((inRange_iff (0, height) y).mp hc)
    simp [List.countP_cons, this]
  · rw [parallel_loop_count _ (parallel_partSize_pos procs height h) _ _ (le_refl _) y, if_pos h1]
  · rw [parallel_loop_count _ (parallel_partSize_pos procs height h) _ _ (le_refl _) y, if_neg h1]

theorem parallel_ranges_mem (procs height : Int) (hH : 0 ≤ height) (r : Int × Int)
    (hr : r ∈ parallel.ranges procs height) : 0 ≤ r.1 ∧ r.1 ≤ r.2 ∧ r.2 ≤ height := by
  unfold parallel.ranges at hr
  simp only [] at hr
  split_ifs at hr with h
  · simp only [List.mem_singleton] at hr
    subst hr
    exact ⟨le_refl _, hH, le_refl _⟩
  · have := parallel_loop_mem _ (parallel_partSize_pos procs height h) _ _ r hr
    omega

theorem parallel_ranges_sorted (procs height : Int) :
    (parallel.ranges procs height).Pairwise (fun r s => s.2 ≤ r.1) := by
  unfold parallel.ranges
  simp only []
  split_ifs with h
  · exact List.pairwise_singleton _ _
  · exact parallel_loop_sorted _ (parallel_partSize_pos procs height h) _ _

/-- Every row of `[0, height)` lies in one of the ranges. -/
theorem parallel_ranges_cover (procs height : Int) (y : Int)
    (h0 : 0 ≤ y) (h1 : y < height) :
    ∃ r ∈ parallel.ranges procs height, r.1 ≤ y ∧ y < r.2 := by
  have hc := parallel_ranges_count procs height y
  rw [if_pos ⟨h0, h1⟩] at hc
  have hpos : 0 < (parallel.ranges procs height).countP (inRange y) := by omega
  obtain ⟨r, hr, hy⟩ := List.countP_pos_iff.mp hpos
  exact ⟨r, hr, (inRange_iff r y).mp hy⟩

theorem foldl_record (rs init : List (Int × Int)) :
    rs.foldl (fun s r => s ++ [(r.1, r.2)]) init = init ++ rs := by
  induction rs generalizing init with
  | nil => simp
  | cons r rs ih => simp [List.foldl_cons, ih]

/-- Recording the calls `parallel` makes yields exactly `parallel.ranges`. -/
theorem parallel_calls (procs height : Int) :
    parallel procs height (fun start end_ calls => calls ++ [(start, end_)]) [] =
      parallel.ranges procs height := by
  unfold parallel
  rw [foldl_record]
  rfl

/-- C5. Partition coverage: for every height `H ≥ 0` and parallelism `P ≥ 1` the
ranges on which `parallel` runs `fn` are half-open intervals inside `[0, H)`, every
row of `[0, H)` lies in exactly one of them, and no two of them share a row; the
ranges are the calls of `fn` that `parallel` makes. -/
theorem parallel_partition (procs height : Int) (_hP : 1 ≤ procs) (hH : 0 ≤ height) :
    (∀ y, 0 ≤ y → y < height → (parallel.ranges procs height).countP (inRange y) = 1) ∧
    (∀ r ∈ parallel.ranges procs height, ∀ y, inRange y r = true → 0 ≤ y ∧ y < height) ∧
    (parallel.ranges procs height).Pairwise
      (fun r s => ∀ y, ¬ (inRange y r = true ∧ inRange y s = true)) ∧
    parallel procs height (fun start end_ calls => calls ++ [(start, end_)]) [] =
      parallel.ranges procs height := by
  refine ⟨?_, ?_, ?_, ?_⟩
  · intro y h0 h1
    rw [parallel_ranges_count procs height y, if_pos ⟨h0, h1⟩]
  · intro r hr y hy
    have h1 := parallel_ranges_mem procs height hH r hr
    have h2 := (inRange_iff r y).mp hy
    omega
  · refine List.Pairwise.imp ?_ (parallel_ranges_sorted procs height)
    intro r s hrs y hy
    have h1 := (inRange_iff r y).mp hy.1
    have h2 := (inRange_iff s y).mp hy.2
    omega
  · exact parallel_calls procs height

/-- C5 at `P = 4`, `H = 18`: five ranges, and row 15 lies in exactly one. -/
theorem parallel_partition_witness :
    parallel.ranges 4 18 = [(14, 18), (10, 14), (6, 10), (2, 6), (0, 2)] ∧
    (parallel.ranges 4 18).countP (inRange 15) = 1 :=
  ⟨by decide, (parallel_partition 4 18 (by decide) (by decide)).1 15 (by decide) (by decide)⟩

/-! ## Sequences of writes to a buffer -/

theorem writes_id (val : Nat → Nat) : Writes (fun a => a) (fun _ => False) val := by
  intro a
  exact ⟨rfl, fun i => ⟨fun h => h.elim, fun _ => rfl⟩⟩

theorem writes_congr {T : List Nat → List Nat} {S S' : Nat → Prop} {val : Nat → Nat}
    (h : Writes T S val) (hS : ∀ i, S i ↔ S' i) : Writes T S' val := by
  intro a
  refine ⟨(h a).1, fun i => ⟨fun hi hl => ((h a).2 i).1 ((hS i).mpr hi) hl, fun hi => ?_⟩⟩
  exact ((h a).2 i).2 (fun hc => hi ((hS i).mp hc))

theorem writes_set (val : Nat → Nat) (j v : Nat) (hv : v = val j) :
    Writes (fun a => a.set j v) (fun i => i = j) val := by
  intro a
  refine ⟨List.length_set _ _ _, fun i => ⟨fun hi hl => ?_, fun hi => ?_⟩⟩
  · subst hi
    rw [List.getElem?_set_self hl, hv]
  · exact List.getElem?_set_ne (fun hc => hi hc.symm)

theorem writes_comp {T1 T2 : List Nat → List Nat} {S1 S2 : Nat → Prop} {val : Nat → Nat}
    (h1 : Writes T1 S1 val) (h2 : Writes T2 S2 val) :
    Writes (fun a => T2 (T1 a)) (fun i => S1 i ∨ S2 i) val := by
  intro a
  have e1 := h1 a
  have e2 := h2 (T1 a)
  refine ⟨by rw [e2.1, e1.1], fun i => ⟨fun hi hl => ?_, fun hi => ?_⟩⟩
  · by_cases hs2 : S2 i
    · exact (e2.2 i).1 hs2 (by rw [e1.1]; exact hl)
    · rw [(e2.2 i).2 hs2]
      rcases hi with hi | hi
      · exact (e1.2 i).1 hi hl
      · exact (hs2 hi).elim
  · rw [(e2.2 i).2 (fun hc => hi (Or.inr hc)), (e1.2 i).2 (fun hc => hi (Or.inl hc))]

theorem writes_foldl {α : Type} (f : α → List Nat → List Nat) (S : α → Nat → Prop)
    (val : Nat → Nat) (l : List α) (h : ∀ k ∈ l, Writes (f k) (S k) val) :
    Writes (fun a => l.foldl (fun s k => f k s) a) (fun i => ∃ k ∈ l, S k i) val := by
  induction l with
  | nil =>
    refine writes_congr (writes_id val) (fun i => ?_)
    simp
  | cons k l ih =>
    have h1 := h k (List.mem_cons_self k l)
    have h2 := ih (fun k' hk' => h k' (List.mem_cons_of_mem k hk'))
    refine writes_congr (writes_comp h1 h2) (fun i => ?_)
    simp

theorem writes_forLoop (lo hi : Int) (body : Int → List Nat → List Nat)
    (S : Int → Nat → Prop) (val : Nat → Nat)
    (h : ∀ v, lo ≤ v → v < hi → Writes (body v) (S v) val) :
    Writes (forLoop lo hi body) (fun i => ∃ v, lo ≤ v ∧ v < hi ∧ S v i) val := by
  have h1 := writes_foldl (fun (k : Nat) => body (lo + (k : Int))) (fun k => S (lo + (k : Int)))
    val (List.range (hi - lo).toNat) (fun k hk => by
      have := List.mem_range.mp hk
      exact h _ (by omega) (by omega))
  have h2 : Writes (forLoop lo hi body)
      (fun i => ∃ k ∈ List.range (hi - lo).toNat, S (lo + (k : Int)) i) val := h1
  refine writes_congr h2 (fun i => ⟨?_, ?_⟩)
  · rintro ⟨k, hk, hs⟩
    have := List.mem_range.mp hk
    exact ⟨lo + (k : Int), by omega, by omega, hs⟩
  · rintro ⟨v, h1, h2, hs⟩
    refine ⟨(v - lo).toNat, List.mem_range.mpr (by omega), ?_⟩
    have : lo + ((v - lo).toNat : Int) = v := by omega
    rw [this]
    exact hs

theorem writes_parallel (procs height : Int) (fn : Int → Int → List Nat → List Nat)
    (S : Int → Int → Nat → Prop) (val : Nat → Nat)
    (h : ∀ r ∈ parallel.ranges procs height, Writes (fn r.1 r.2) (S r.1 r.2) val) :
    Writes (parallel procs height fn)
      (fun i => ∃ r ∈ parallel.ranges procs height, S r.1 r.2 i) val :=
  writes_foldl (fun (r : Int × Int) => fn r.1 r.2) (fun r => S r.1 r.2) val _ h

/-- The four writes of one pixel, at a non-negative offset `p`. -/
theorem writes_pixel (val : Nat → Nat) (p : Nat) (v0 v1 v2 v3 : Nat)
    (h0 : v0 = val p) (h1 : v1 = val (p + 1)) (h2 : v2 = val (p + 2)) (h3 : v3 = val (p + 3)) :
    Writes (fun a => (((a.set p v0).set (p + 1) v1).set (p + 2) v2).set (p + 3) v3)
      (fun i => p ≤ i ∧ i < p + 4) val := by
  have w := writes_comp (writes_comp (writes_comp (writes_set val p v0 h0)
    (writes_set val (p + 1) v1 h1)) (writes_set val (p + 2) v2 h2)) (writes_set val (p + 3) v3 h3)
  refine writes_congr w (fun i => ?_)
  omega

/-! ## Offsets of pixels -/

/-- Offsets of pixels are non-negative multiples of 4, below the buffer length. -/
theorem pos_bounds (w h x y : Int) (hx0 : 0 ≤ x) (hx : x < w) (hy0 : 0 ≤ y) (hy : y < h) :
    0 ≤ y * (4 * w) + x * 4 ∧ (y * (4 * w) + x * 4).toNat % 4 = 0 ∧
      y * (4 * w) + x * 4 + 4 ≤ 4 * w * h := by
  have hm : 0 ≤ y * w := mul_nonneg hy0 (by omega)
  have he : y * (4 * w) = 4 * (y * w) := by ring
  have h1 : (y + 1) * w ≤ h * w := mul_le_mul_of_nonneg_right (by omega) (by omega)
  have h2 : (y + 1) * w = y * w + w := by ring
  have h3 : 4 * w * h = 4 * (h * w) := by ring
  rw [he, h3]
  refine ⟨by omega, by omega, by omega⟩

/-- Every index below `4 * w * h` lies in the four bytes of some pixel. -/
theorem index_cover (w h : Int) (i : Nat) (hi : (i : Int) < 4 * w * h) (hw : 0 < w) :
    ∃ y x : Int, 0 ≤ y ∧ y < h ∧ 0 ≤ x ∧ x < w ∧
      (y * (4 * w) + x * 4).toNat ≤ i ∧ i < (y * (4 * w) + x * 4).toNat + 4 := by
  have hpos : (0 : Int) < 4 * w := by omega
  have h1 := Int.ediv_add_emod (i : Int) (4 * w)
  have h2 := Int.emod_nonneg (i : Int) (ne_of_gt hpos)
  have h3 := Int.emod_lt_of_pos (i : Int) hpos
  have h4 : 0 ≤ (i : Int) / (4 * w) := Int.ediv_nonneg (by omega) (by omega)
  have h5 : (i : Int) / (4 * w) < h := by
    apply Int.ediv_lt_of_lt_mul hpos
    have : h * (4 * w) = 4 * w * h := by ring
    omega
  refine ⟨(i : Int) / (4 * w), (i : Int) % (4 * w) / 4, h4, h5, by omega, by omega, ?_⟩
  have h6 : (i : Int) / (4 * w) * (4 * w) = 4 * w * ((i : Int) / (4 * w)) := by ring
  rw [h6]
  omega

theorem encode_pixel_writes (depth : Nat) (coin : Nat → Bool) (src hid : RGBA) (pos : Int)
    (h0 : 0 ≤ pos) (h4 : pos.toNat % 4 = 0) :
    Writes (Encode.pixel depth coin src hid pos)
      (fun i => pos.toNat ≤ i ∧ i < pos.toNat + 4) (Encode.byteAt depth coin src hid) := by
  have e0 : (pos + 0).toNat = pos.toNat := by omega
  have e1 : (pos + 1).toNat = pos.toNat + 1 := by omega
  have e2 : (pos + 2).toNat = pos.toNat + 2 := by omega
  have e3 : (pos + 3).toNat = pos.toNat + 3 := by omega
  unfold Encode.pixel pixSet pixGet
  simp only [e0, e1, e2, e3]
  apply writes_pixel
  · unfold Encode.byteAt
    rw [if_neg (by omega)]
  · unfold Encode.byteAt
    rw [if_neg (by omega)]
  · unfold Encode.byteAt
    rw [if_neg (by omega)]
  · unfold Encode.byteAt
    rw [if_pos (by omega)]

theorem decode_pixel_writes (depth : Nat) (enc src : RGBA) (pos : Int)
    (h0 : 0 ≤ pos) (h4 : pos.toNat % 4 = 0) :
    Writes (Decode.pixel depth enc src pos)
      (fun i => pos.toNat ≤ i ∧ i < pos.toNat + 4) (Decode.byteAt depth enc src) := by
  have e0 : (pos + 0).toNat = pos.toNat := by omega
  have e1 : (pos + 1).toNat = pos.toNat + 1 := by omega
  have e2 : (pos + 2).toNat = pos.toNat + 2 := by omega
  have e3 : (pos + 3).toNat = pos.toNat + 3 := by omega
  unfold Decode.pixel pixSet pixGet
  simp only [e0, e1, e2, e3]
  apply writes_pixel
  · unfold Decode.byteAt
    rw [if_neg (by omega)]
  · unfold Decode.byteAt
    rw [if_neg (by omega)]
  · unfold Decode.byteAt
    rw [if_neg (by omega)]
  · unfold Decode.byteAt
    rw [if_pos (by omega)]

/-- A pass that runs `body` at the offset of every pixel of every row, under
`parallel`, stores `val i` at every index of the buffer. -/
theorem pass_get (procs w h : Int) (body : Int → List Nat → List Nat) (val : Nat → Nat)
    (hw : 0 < w) (hh : 0 < h)
    (hb : ∀ pos : Int, 0 ≤ pos → pos.toNat % 4 = 0 →
      Writes (body pos) (fun i => pos.toNat ≤ i ∧ i < pos.toNat + 4) val)
    (a : List Nat) (ha : a.length = (4 * w * h).toNat) :
    (parallel procs h (fun start end_ pix =>
        forLoop start end_ (fun y pix =>
          forLoop 0 w (fun x pix => body (y * (4 * w) + x * 4) pix) pix) pix) a).length
      = a.length ∧
    ∀ i, i < a.length →
      (parallel procs h (fun start end_ pix =>
        forLoop start end_ (fun y pix =>
          forLoop 0 w (fun x pix => body (y * (4 * w) + x * 4) pix) pix) pix) a)[i]?
      = some (val i) := by
  have hrow : ∀ y : Int, 0 ≤ y → y < h →
      Writes (forLoop 0 w (fun x pix => body (y * (4 * w) + x * 4) pix))
        (fun i => ∃ x, 0 ≤ x ∧ x < w ∧
          ((y * (4 * w) + x * 4).toNat ≤ i ∧ i < (y * (4 * w) + x * 4).toNat + 4)) val := by
    intro y hy0 hy
    apply writes_forLoop 0 w (fun x pix => body (y * (4 * w) + x * 4) pix)
      (fun x i => (y * (4 * w) + x * 4).toNat ≤ i ∧ i < (y * (4 * w) + x * 4).toNat + 4)
    intro x hx0 hx
    have hp := pos_bounds w h x y hx0 hx hy0 hy
    exact hb _ hp.1 hp.2.1
  have hall := writes_parallel procs h
    (fun start end_ pix =>
        forLoop start end_ (fun y pix =>
          forLoop 0 w (fun x pix => body (y * (4 * w) + x * 4) pix) pix) pix)
    (fun start end_ i => ∃ y, start ≤ y ∧ y < end_ ∧ ∃ x, 0 ≤ x ∧ x < w ∧
          ((y * (4 * w) + x * 4).toNat ≤ i ∧ i < (y * (4 * w) + x * 4).toNat + 4)) val
    (fun r hr => by
      have hm := parallel_ranges_mem procs h (le_of_lt hh) r hr
      apply writes_forLoop r.1 r.2
        (fun y pix => forLoop 0 w (fun x pix => body (y * (4 * w) + x * 4) pix) pix)
        (fun y i => ∃ x, 0 ≤ x ∧ x < w ∧
          ((y * (4 * w) + x * 4).toNat ≤ i ∧ i < (y * (4 * w) + x * 4).toNat + 4))
      intro y hy0 hy
      exact hrow y (by omega) (by omega))
  refine ⟨(hall a).1, fun i hi => ?_⟩
  apply ((hall a).2 i).1 _ hi
  have hi' : (i : Int) < 4 * w * h := by
    have : 0 ≤ 4 * w * h := by positivity
    omega
  obtain ⟨y, x, hy0, hy, hx0, hx, hlo, hhi⟩ := index_cover w h i hi' hw
  obtain ⟨r, hr, hr1, hr2⟩ := parallel_ranges_cover procs h y hy0 hy
  exact ⟨r, hr, y, hr1, hr2, x, hx0, hx, hlo, hhi⟩

/-! ## The buffers built by `NewRGBA` and `draw.Draw` -/

theorem empty_false_iff (r : Rectangle) : r.Empty = false ↔ 0 < r.Dx ∧ 0 < r.Dy := by
  unfold Rectangle.Empty Rectangle.Dx Rectangle.Dy
  simp only [Bool.or_eq_false_iff, decide_eq_false_iff_not]
  omega

theorem has_iff (r : Rectangle) (x y : Int) :
    r.Has x y = true ↔ r.Min.X ≤ x ∧ x < r.Max.X ∧ r.Min.Y ≤ y ∧ y < r.Max.Y := by
  unfold Rectangle.Has
  simp only [Bool.and_eq_true, decide_eq_true_eq]
  tauto

theorem toByte_lt (c : Nat) : toByte c < 256 := by
  unfold toByte; omega

theorem toByte_widen (b : Nat) (hb : b < 256) : toByte (b * 257) = b := by
  unfold toByte
  have h1 : b * 257 = b + 256 * b := by ring
  rw [h1, Nat.add_mul_div_left b b (by decide : 0 < 256)]
  omega

theorem clone_rect (s : Image) (b : Rectangle) : (cloneWithBounds s b).Rect = b := rfl

theorem clone_stride (s : Image) (b : Rectangle) : (cloneWithBounds s b).Stride = 4 * b.Dx := rfl

theorem clone_length (s : Image) (b : Rectangle) :
    (cloneWithBounds s b).Pix.length = (4 * b.Dx * b.Dy).toNat := by
  simp [cloneWithBounds, drawSrc, NewRGBA]

theorem cloneAs_eq (s : Image) : cloneAsRGBA s = cloneWithBounds s s.Bounds := rfl

/-- Byte `i` of the buffer `cloneWithBounds` builds. -/
theorem clone_get (s : Image) (b : Rectangle) (i : Nat) (hi : i < (4 * b.Dx * b.Dy).toNat) :
    (cloneWithBounds s b).Pix[i]? = some
      (if b.Has (b.Min.X + (i : Int) % (4 * b.Dx) / 4) (b.Min.Y + (i : Int) / (4 * b.Dx)) &&
          s.Bounds.Has (b.Min.X + (i : Int) % (4 * b.Dx) / 4) (b.Min.Y + (i : Int) / (4 * b.Dx))
       then toByte ((s.At (b.Min.X + (i : Int) % (4 * b.Dx) / 4)
          (b.Min.Y + (i : Int) / (4 * b.Dx))).chan (i % 4))
       else 0) := by
  simp only [cloneWithBounds, drawSrc, NewRGBA, List.length_replicate, List.getElem?_map,
    List.getElem?_range hi, Option.map_some', Bool.and_self]
  have hz : (List.replicate (4 * b.Dx * b.Dy).toNat 0).getD i 0 = 0 := by
    simp [List.getD_eq_getElem?_getD, List.getElem?_replicate, hi]
  rw [hz]

theorem clone_getD_lt (s : Image) (b : Rectangle) (i : Nat) :
    (cloneWithBounds s b).Pix.getD i 0 < 256 := by
  by_cases hi : i < (4 * b.Dx * b.Dy).toNat
  · rw [List.getD_eq_getElem?_getD, clone_get s b i hi]
    simp only [Option.getD_some]
    split_ifs
    · exact toByte_lt _
    · omega
  · rw [List.getD_eq_getElem?_getD, List.getElem?_eq_none (by rw [clone_length]; omega)]
    simp

/-- The row, column and component of the byte at the offset of pixel `(x, y)` plus
`c`. -/
theorem index_decode (w x y c : Int) (hx0 : 0 ≤ x) (hx : x < w) (hc0 : 0 ≤ c) (hc : c < 4) :
    (y * (4 * w) + x * 4 + c) / (4 * w) = y ∧ (y * (4 * w) + x * 4 + c) % (4 * w) / 4 = x ∧
      (y * (4 * w) + x * 4 + c) % 4 = c := by
  have hpos : (0 : Int) < 4 * w := by omega
  have key := (Int.ediv_emod_unique (a := y * (4 * w) + x * 4 + c) (r := x * 4 + c) (q := y) hpos).mpr
    ⟨by ring, by omega, by omega⟩
  have he : y * (4 * w) = 4 * (y * w) := by ring
  refine ⟨key.1, ?_, ?_⟩
  · rw [key.2]; omega
  · rw [he]; omega

/-! ## What `Encode` and `Decode` store in each byte -/

theorem marker_lt (w h : Int) (hw : 0 < w) (hh : 0 < h) :
    markerIndex w h < (4 * w * h).toNat ∧ markerIndex w h % 4 = 0 := by
  have hp := pos_bounds w h (w - 1) (h - 1) (by omega) (by omega) (by omega) (by omega)
  unfold markerIndex
  omega

theorem encode_fields (procs : Int) (coin : Nat → Bool) (mcoin : Bool) (source hidden : Image)
    (depth : Nat) (hne : source.Bounds.Empty = false) :
    (Encode procs coin mcoin source hidden depth).Rect = source.Bounds ∧
    (Encode procs coin mcoin source hidden depth).Stride = 4 * source.Bounds.Dx ∧
    (Encode procs coin mcoin source hidden depth).Pix.length
      = (4 * source.Bounds.Dx * source.Bounds.Dy).toNat := by
  obtain ⟨hw, hh⟩ := (empty_false_iff _).mp hne
  have hlen := (pass_get procs source.Bounds.Dx source.Bounds.Dy
    (Encode.pixel depth coin (cloneWithBounds source source.Bounds)
      (cloneWithBounds hidden source.Bounds))
    (Encode.byteAt depth coin (cloneWithBounds source source.Bounds)
      (cloneWithBounds hidden source.Bounds))
    hw hh (fun pos h0 h4 => encode_pixel_writes depth coin _ _ pos h0 h4)
    (NewRGBA source.Bounds).Pix (by simp [NewRGBA])).1
  refine ⟨?_, ?_, ?_⟩
  · simp [Encode, cloneAs_eq, clone_rect, hne, NewRGBA]
  · simp [Encode, cloneAs_eq, clone_rect, hne, NewRGBA]
  · simp only [Encode, cloneAs_eq, clone_rect, hne, Bool.false_eq_true, if_false, pixSet,
      List.length_set, Encode.pass, clone_stride]
    rw [hlen]
    simp [NewRGBA]

/-- Byte `i` of the image `Encode` returns: at the marker index the result of
`calc` on the source byte and 255, elsewhere what the per-pixel pass stored. -/
theorem encode_get (procs : Int) (coin : Nat → Bool) (mcoin : Bool) (source hidden : Image)
    (depth : Nat) (hne : source.Bounds.Empty = false) (i : Nat)
    (hi : i < (4 * source.Bounds.Dx * source.Bounds.Dy).toNat) :
    (Encode procs coin mcoin source hidden depth).Pix[i]? = some
      (if i = markerIndex source.Bounds.Dx source.Bounds.Dy
       then Encode.calc depth mcoin ((cloneAsRGBA source).Pix.getD i 0) 255
       else Encode.byteAt depth coin (cloneAsRGBA source)
          (cloneWithBounds hidden source.Bounds) i) := by
  obtain ⟨hw, hh⟩ := (empty_false_iff _).mp hne
  have hpass := pass_get procs source.Bounds.Dx source.Bounds.Dy
    (Encode.pixel depth coin (cloneWithBounds source source.Bounds)
      (cloneWithBounds hidden source.Bounds))
    (Encode.byteAt depth coin (cloneWithBounds source source.Bounds)
      (cloneWithBounds hidden source.Bounds))
    hw hh (fun pos h0 h4 => encode_pixel_writes depth coin _ _ pos h0 h4)
    (NewRGBA source.Bounds).Pix (by simp [NewRGBA])
  have hlen0 : (NewRGBA source.Bounds).Pix.length
      = (4 * source.Bounds.Dx * source.Bounds.Dy).toNat := by simp [NewRGBA]
  simp only [Encode, cloneAs_eq, clone_rect, hne, Bool.false_eq_true, if_false, pixSet,
      Encode.pass, clone_stride, pixGet]
  have hm : ((source.Bounds.Dy - 1) * (4 * source.Bounds.Dx) + (source.Bounds.Dx - 1) * 4 + 0).toNat
      = markerIndex source.Bounds.Dx source.Bounds.Dy := rfl
  rw [hm]
  by_cases him : i = markerIndex source.Bounds.Dx source.Bounds.Dy
  · subst him
    rw [if_pos rfl, List.getElem?_set_self (by rw [hpass.1, hlen0]; exact hi)]
  · rw [if_neg him, List.getElem?_set_ne (fun hc => him hc.symm)]
    exact hpass.2 i (by rw [hlen0]; exact hi)

theorem decode_fields (procs : Int) (encoded source : Image) (depth : Nat)
    (hne : encoded.Bounds.Empty = false) :
    (Decode procs encoded source depth).Rect = encoded.Bounds ∧
    (Decode procs encoded source depth).Stride = 4 * encoded.Bounds.Dx ∧
    (Decode procs encoded source depth).Pix.length
      = (4 * encoded.Bounds.Dx * encoded.Bounds.Dy).toNat := by
  obtain ⟨hw, hh⟩ := (empty_false_iff _).mp hne
  refine ⟨?_, ?_, ?_⟩
  · simp [Decode, cloneAs_eq, clone_rect, hne, NewRGBA]
  · simp [Decode, cloneAs_eq, clone_rect, hne, NewRGBA]
  · simp only [Decode, cloneAs_eq, clone_rect, hne, Bool.false_eq_true, if_false,
      Decode.pass, clone_stride]
    rw [(pass_get procs encoded.Bounds.Dx encoded.Bounds.Dy
      (Decode.pixel _ (cloneWithBounds encoded encoded.Bounds)
        (cloneWithBounds source encoded.Bounds))
      (Decode.byteAt _ (cloneWithBounds encoded encoded.Bounds)
        (cloneWithBounds source encoded.Bounds))
      hw hh (fun pos h0 h4 => decode_pixel_writes _ _ _ pos h0 h4)
      (NewRGBA encoded.Bounds).Pix (by simp [NewRGBA])).1]
    simp [NewRGBA]

/-- Byte `i` of the image `Decode` returns. -/
theorem decode_get (procs : Int) (encoded source : Image) (depth : Nat)
    (hne : encoded.Bounds.Empty = false) (i : Nat)
    (hi : i < (4 * encoded.Bounds.Dx * encoded.Bounds.Dy).toNat) :
    (Decode procs encoded source depth).Pix[i]? = some
      (Decode.byteAt
        (Decode.depthOf (cloneAsRGBA encoded) (cloneWithBounds source encoded.Bounds)
          encoded.Bounds.Dx encoded.Bounds.Dy depth)
        (cloneAsRGBA encoded) (cloneWithBounds source encoded.Bounds) i) := by
  obtain ⟨hw, hh⟩ := (empty_false_iff _).mp hne
  simp only [Decode, cloneAs_eq, clone_rect, hne, Bool.false_eq_true, if_false,
      Decode.pass, clone_stride]
  exact (pass_get procs encoded.Bounds.Dx encoded.Bounds.Dy
      (Decode.pixel _ (cloneWithBounds encoded encoded.Bounds)
        (cloneWithBounds source encoded.Bounds))
      (Decode.byteAt _ (cloneWithBounds encoded encoded.Bounds)
        (cloneWithBounds source encoded.Bounds))
      hw hh (fun pos h0 h4 => decode_pixel_writes _ _ _ pos h0 h4)
      (NewRGBA encoded.Bounds).Pix (by simp [NewRGBA])).2 i
        (by rw [show (NewRGBA encoded.Bounds).Pix.length
              = (4 * encoded.Bounds.Dx * encoded.Bounds.Dy).toNat from by simp [NewRGBA]]
            exact hi)

/-! ## An `*image.RGBA` read back through the `image.Image` interface -/

theorem chan_mk (r g b a c : Nat) (hc : c < 4) :
    (Color.mk r g b a).chan c = [r, g, b, a].getD c 0 := by
  unfold Color.chan
  interval_cases c <;> simp

/-- Cloning a well-formed `RGBA` seen as an `image.Image` gives the same buffer
back. -/
theorem clone_toImage (p : RGBA) (hS : p.Stride = 4 * p.Rect.Dx)
    (hL : p.Pix.length = (4 * p.Rect.Dx * p.Rect.Dy).toNat) (hw : 0 < p.Rect.Dx)
    (hB : ∀ i, p.Pix.getD i 0 < 256) : cloneAsRGBA p.toImage = p := by
  have hpix : (cloneAsRGBA p.toImage).Pix = p.Pix := by
    apply List.ext_getElem?
    intro n
    by_cases hn : n < (4 * p.Rect.Dx * p.Rect.Dy).toNat
    · rw [cloneAs_eq]
      have hb : p.toImage.Bounds = p.Rect := rfl
      rw [hb, clone_get p.toImage p.Rect n hn]
      have hpos : (0 : Int) < 4 * p.Rect.Dx := by omega
      have h1 := Int.ediv_add_emod (n : Int) (4 * p.Rect.Dx)
      have h2 := Int.emod_nonneg (n : Int) (ne_of_gt hpos)
      have h3 := Int.emod_lt_of_pos (n : Int) hpos
      have h4 : 0 ≤ (n : Int) / (4 * p.Rect.Dx) := Int.ediv_nonneg (by omega) (by omega)
      have h5 : (n : Int) / (4 * p.Rect.Dx) < p.Rect.Dy := by
        apply Int.ediv_lt_of_lt_mul hpos
        have : p.Rect.Dy * (4 * p.Rect.Dx) = 4 * p.Rect.Dx * p.Rect.Dy := by ring
        have : 0 ≤ 4 * p.Rect.Dx * p.Rect.Dy := by
          by_contra hc
          have : (4 * p.Rect.Dx * p.Rect.Dy).toNat = 0 := by omega
          omega
        omega
      have hdx : p.Rect.Dx = p.Rect.Max.X - p.Rect.Min.X := rfl
      have hdy : p.Rect.Dy = p.Rect.Max.Y - p.Rect.Min.Y := rfl
      have hhas : p.Rect.Has (p.Rect.Min.X + (n : Int) % (4 * p.Rect.Dx) / 4)
          (p.Rect.Min.Y + (n : Int) / (4 * p.Rect.Dx)) = true := by
        rw [has_iff]
        omega
      have hhas' : p.toImage.Bounds.Has (p.Rect.Min.X + (n : Int) % (4 * p.Rect.Dx) / 4)
          (p.Rect.Min.Y + (n : Int) / (4 * p.Rect.Dx)) = true := hhas
      simp only [hhas, hhas', Bool.and_self, if_true]
      have hat : p.toImage.At (p.Rect.Min.X + (n : Int) % (4 * p.Rect.Dx) / 4)
          (p.Rect.Min.Y + (n : Int) / (4 * p.Rect.Dx)) =
          let i := (p.Rect.Min.Y + (n : Int) / (4 * p.Rect.Dx) - p.Rect.Min.Y) * p.Stride +
            (p.Rect.Min.X + (n : Int) % (4 * p.Rect.Dx) / 4 - p.Rect.Min.X) * 4
          ⟨pixGet p.Pix (i + 0) * 257, pixGet p.Pix (i + 1) * 257,
           pixGet p.Pix (i + 2) * 257, pixGet p.Pix (i + 3) * 257⟩ := by
        simp only [RGBA.toImage, hhas, if_true]
      rw [hat]
      simp only []
      have hidx : (p.Rect.Min.Y + (n : Int) / (4 * p.Rect.Dx) - p.Rect.Min.Y) * p.Stride +
            (p.Rect.Min.X + (n : Int) % (4 * p.Rect.Dx) / 4 - p.Rect.Min.X) * 4
          = (n : Int) - (n : Int) % 4 := by
        rw [hS]
        have h6 : (p.Rect.Min.Y + (n : Int) / (4 * p.Rect.Dx) - p.Rect.Min.Y) * (4 * p.Rect.Dx)
            = 4 * (p.Rect.Dx * ((n : Int) / (4 * p.Rect.Dx))) := by ring
        have h7 : 4 * p.Rect.Dx * ((n : Int) / (4 * p.Rect.Dx))
            = 4 * (p.Rect.Dx * ((n : Int) / (4 * p.Rect.Dx))) := by ring
        rw [h6]
        rw [h7] at h1
        omega
      rw [hidx, chan_mk _ _ _ _ _ (Nat.mod_lt n (by decide))]
      have hnl : n < p.Pix.length := by rw [hL]; exact hn
      rw [List.getElem?_eq_getElem hnl]
      congr 1
      have hg : p.Pix[n] = p.Pix.getD n 0 := (List.getD_eq_getElem _ _ hnl).symm
      rw [hg]
      have hmod : n % 4 < 4 := Nat.mod_lt n (by decide)
      unfold pixGet
      have c0 : n % 4 = 0 → ((n : Int) - (n : Int) % 4 + 0).toNat = n := by omega
      have c1 : n % 4 = 1 → ((n : Int) - (n : Int) % 4 + 1).toNat = n := by omega
      have c2 : n % 4 = 2 → ((n : Int) - (n : Int) % 4 + 2).toNat = n := by omega
      have c3 : n % 4 = 3 → ((n : Int) - (n : Int) % 4 + 3).toNat = n := by omega
      rcases (by omega : n % 4 = 0 ∨ n % 4 = 1 ∨ n % 4 = 2 ∨ n % 4 = 3) with h | h | h | h
      · rw [h]; simp only [List.getD_cons_zero]; rw [c0 h]; exact toByte_widen _ (hB n)
      · rw [h]; simp only [List.getD_cons_succ, List.getD_cons_zero]; rw [c1 h]
        exact toByte_widen _ (hB n)
      · rw [h]; simp only [List.getD_cons_succ, List.getD_cons_zero]; rw [c2 h]
        exact toByte_widen _ (hB n)
      · rw [h]; simp only [List.getD_cons_succ, List.getD_cons_zero]; rw [c3 h]
        exact toByte_widen _ (hB n)
    · rw [List.getElem?_eq_none (by rw [cloneAs_eq, clone_length]; exact Nat.le_of_not_lt hn),
        List.getElem?_eq_none (by rw [hL]; exact Nat.le_of_not_lt hn)]
  have hstride : (cloneAsRGBA p.toImage).Stride = p.Stride := by
    rw [cloneAs_eq, clone_stride, hS]; rfl
  have hrect : (cloneAsRGBA p.toImage).Rect = p.Rect := rfl
  cases p
  cases hq : cloneAsRGBA (RGBA.toImage _)
  rw [hq] at hpix hstride hrect
  simp only at hpix hstride hrect
  rw [hpix, hstride, hrect]

/-! ## Well-formedness of the image `Encode` returns -/

theorem encode_getD_lt (procs : Int) (coin : Nat → Bool) (mcoin : Bool) (source hidden : Image)
    (depth : Nat) (hne : source.Bounds.Empty = false) (i : Nat) :
    (Encode procs coin mcoin source hidden depth).Pix.getD i 0 < 256 := by
  by_cases hi : i < (4 * source.Bounds.Dx * source.Bounds.Dy).toNat
  · rw [List.getD_eq_getElem?_getD, encode_get procs coin mcoin source hidden depth hne i hi]
    simp only [Option.getD_some]
    split_ifs
    · exact encode_calc_lt _ _ _ _
    · unfold Encode.byteAt
      split_ifs
      · exact clone_getD_lt _ _ _
      · exact encode_calc_lt _ _ _ _
  · rw [List.getD_eq_getElem?_getD, List.getElem?_eq_none
      (by rw [(encode_fields procs coin mcoin source hidden depth hne).2.2]; omega)]
    simp

/-- Reading the result of `Encode` back as an `image.Image` and cloning it gives
the same buffer. -/
theorem encode_reclone (procs : Int) (coin : Nat → Bool) (mcoin : Bool) (source hidden : Image)
    (depth : Nat) (hne : source.Bounds.Empty = false) :
    cloneAsRGBA (Encode procs coin mcoin source hidden depth).toImage
      = Encode procs coin mcoin source hidden depth := by
  obtain ⟨h1, h2, h3⟩ := encode_fields procs coin mcoin source hidden depth hne
  obtain ⟨hw, _⟩ := (empty_false_iff _).mp hne
  apply clone_toImage
  · rw [h2, h1]
  · rw [h3, h1]
  · rw [h1]; exact hw
  · exact encode_getD_lt procs coin mcoin source hidden depth hne

/-- The red byte of the bottom-right pixel of a cloned image. -/
theorem clone_marker (s : Image) (hne : s.Bounds.Empty = false) :
    (cloneAsRGBA s).Pix[markerIndex s.Bounds.Dx s.Bounds.Dy]? =
      some (toByte (s.At (s.Bounds.Max.X - 1) (s.Bounds.Max.Y - 1)).R) := by
  obtain ⟨hw, hh⟩ := (empty_false_iff _).mp hne
  have hm := marker_lt _ _ hw hh
  rw [cloneAs_eq, clone_get s s.Bounds _ hm.1]
  have hp := pos_bounds s.Bounds.Dx s.Bounds.Dy (s.Bounds.Dx - 1) (s.Bounds.Dy - 1)
    (by omega) (by omega) (by omega) (by omega)
  have hcast : ((markerIndex s.Bounds.Dx s.Bounds.Dy : Nat) : Int)
      = (s.Bounds.Dy - 1) * (4 * s.Bounds.Dx) + (s.Bounds.Dx - 1) * 4 + 0 := by
    unfold markerIndex
    omega
  obtain ⟨d1, d2, d3⟩ := index_decode s.Bounds.Dx (s.Bounds.Dx - 1) (s.Bounds.Dy - 1) 0
    (by omega) (by omega) (by omega) (by omega)
  rw [hcast, d1, d2]
  have hdx : s.Bounds.Dx = s.Bounds.Max.X - s.Bounds.Min.X := rfl
  have hdy : s.Bounds.Dy = s.Bounds.Max.Y - s.Bounds.Min.Y := rfl
  have e1 : s.Bounds.Min.X + (s.Bounds.Dx - 1) = s.Bounds.Max.X - 1 := by omega
  have e2 : s.Bounds.Min.Y + (s.Bounds.Dy - 1) = s.Bounds.Max.Y - 1 := by omega
  rw [e1, e2]
  have hhas : s.Bounds.Has (s.Bounds.Max.X - 1) (s.Bounds.Max.Y - 1) = true := by
    rw [has_iff]; omega
  simp only [hhas, Bool.and_self, if_true]
  have : markerIndex s.Bounds.Dx s.Bounds.Dy % 4 = 0 := hm.2
  rw [this]
  rfl

/-- The byte of component `c` of pixel `(x, y)` of a cloned image, `x` and `y`
counted from the top-left corner. -/
theorem clone_pixel (s : Image) (x y : Int) (c : Nat) (hx0 : 0 ≤ x) (hx : x < s.Bounds.Dx)
    (hy0 : 0 ≤ y) (hy : y < s.Bounds.Dy) (hc : c < 4) :
    (cloneAsRGBA s).Pix[(y * (4 * s.Bounds.Dx) + x * 4 + (c : Int)).toNat]? =
      some (toByte ((s.At (s.Bounds.Min.X + x) (s.Bounds.Min.Y + y)).chan c)) := by
  have hp := pos_bounds s.Bounds.Dx s.Bounds.Dy x y hx0 hx hy0 hy
  have hlt : (y * (4 * s.Bounds.Dx) + x * 4 + (c : Int)).toNat
      < (4 * s.Bounds.Dx * s.Bounds.Dy).toNat := by omega
  rw [cloneAs_eq, clone_get s s.Bounds _ hlt]
  have hcast : (((y * (4 * s.Bounds.Dx) + x * 4 + (c : Int)).toNat : Nat) : Int)
      = y * (4 * s.Bounds.Dx) + x * 4 + (c : Int) := by omega
  obtain ⟨d1, d2, d3⟩ := index_decode s.Bounds.Dx x y (c : Int) hx0 hx (by omega) (by omega)
  rw [hcast, d1, d2]
  have hdx : s.Bounds.Dx = s.Bounds.Max.X - s.Bounds.Min.X := rfl
  have hdy : s.Bounds.Dy = s.Bounds.Max.Y - s.Bounds.Min.Y := rfl
  have hhas : s.Bounds.Has (s.Bounds.Min.X + x) (s.Bounds.Min.Y + y) = true := by
    rw [has_iff]; omega
  simp only [hhas, Bool.and_self, if_true]
  have : (y * (4 * s.Bounds.Dx) + x * 4 + (c : Int)).toNat % 4 = c := by omega
  rw [this]

/-! ## The depth marker -/

/-- The marker byte differs from the source byte by exactly `d` unless both
directions leave the byte range. -/
theorem calc_marker (d : Nat) (mcoin : Bool) (s : Nat) (hs : s < 256) (hd : d < 256)
    (hsafe : d ≤ 128 ∨ d ≤ s ∨ s + d ≤ 255) :
    Encode.calc d mcoin s 255 = s + d ∨ Encode.calc d mcoin s 255 + d = s := by
  rw [encode_calc_eq d mcoin s 255 hs, encode_level_255 d hd]
  split_ifs <;> omega

theorem markerRed_lt (s : Image) : markerRed s < 256 := toByte_lt _

theorem clone_marker_getD (s : Image) (hne : s.Bounds.Empty = false) :
    (cloneAsRGBA s).Pix.getD (markerIndex s.Bounds.Dx s.Bounds.Dy) 0 = markerRed s := by
  rw [List.getD_eq_getElem?_getD, clone_marker s hne]
  rfl

/-- C1 (as stated) fails: for the 1x1 source `(100, 0, 0, 255)` and depth 200 the
marker byte is 156, which differs from the source byte 100 by 56, not by 200. -/
theorem encode_marker_counterexample :
    (cloneAsRGBA onePixel).Pix[markerIndex 1 1]? = some 100 ∧
    (Encode 1 (fun _ => false) false onePixel onePixel 200).Pix[markerIndex 1 1]? = some 156 ∧
    ¬ (156 = 100 + 200 ∨ 156 + 200 = 100) := by
  decide

/-- The marker byte of the encoded image against that of the source. -/
theorem encode_marker_get (procs : Int) (coin : Nat → Bool) (mcoin : Bool)
    (source hidden : Image) (d : Nat) (hne : source.Bounds.Empty = false) (hd : d < 256)
    (hsafe : d ≤ 128 ∨ d ≤ markerRed source ∨ markerRed source + d ≤ 255) :
    (cloneAsRGBA source).Pix[markerIndex source.Bounds.Dx source.Bounds.Dy]?
      = some (markerRed source) ∧
    ∃ e, (Encode procs coin mcoin source hidden d).Pix[markerIndex source.Bounds.Dx
        source.Bounds.Dy]? = some e ∧
      (e = markerRed source + d ∨ e + d = markerRed source) := by
  obtain ⟨hw, hh⟩ := (empty_false_iff _).mp hne
  refine ⟨clone_marker source hne, Encode.calc d mcoin (markerRed source) 255, ?_, ?_⟩
  · rw [encode_get procs coin mcoin source hidden d hne _ (marker_lt _ _ hw hh).1, if_pos rfl,
      clone_marker_getD source hne]
  · exact calc_marker d mcoin _ (markerRed_lt source) hd hsafe

/-- C1 (amended). For every non-empty source, every hidden image, every depth `d`
and every outcome of the random draws, the red byte of the bottom-right pixel of
the image `Encode` returns differs from the red byte `s` of the source's
bottom-right pixel by exactly `d`, provided `d ≤ s` or `s + d ≤ 255` (which holds
for every `s` when `d ≤ 128`). -/
theorem encode_marker_exact (procs : Int) (coin : Nat → Bool) (mcoin : Bool)
    (source hidden : Image) (d : Nat) (hne : source.Bounds.Empty = false) (hd : d < 256)
    (hsafe : d ≤ 128 ∨ d ≤ markerRed source ∨ markerRed source + d ≤ 255) :
    (cloneAsRGBA source).Pix[markerIndex source.Bounds.Dx source.Bounds.Dy]?
      = some (markerRed source) ∧
    ∃ e, (Encode procs coin mcoin source hidden d).Pix[markerIndex source.Bounds.Dx
        source.Bounds.Dy]? = some e ∧
      (e = markerRed source + d ∨ e + d = markerRed source) :=
  encode_marker_get procs coin mcoin source hidden d hne hd hsafe

/-- C1 (amended) at the 1x1 source `(100, 0, 0, 255)` and depth 10. -/
theorem encode_marker_exact_witness :
    ∃ e, (Encode 1 (fun _ => false) false onePixel onePixel 10).Pix[markerIndex
        onePixel.Bounds.Dx onePixel.Bounds.Dy]? = some e ∧
      (e = markerRed onePixel + 10 ∨ e + 10 = markerRed onePixel) :=
  (encode_marker_exact 1 (fun _ => false) false onePixel onePixel 10 (by decide) (by decide)
    (by decide)).2

/-- The depth `Decode` infers from the result of `Encode`. -/
theorem depthOf_encode (procs : Int) (coin : Nat → Bool) (mcoin : Bool)
    (source hidden : Image) (d : Nat) (hne : source.Bounds.Empty = false) (hd0 : 0 < d)
    (hd : d < 256)
    (hsafe : d ≤ 128 ∨ d ≤ markerRed source ∨ markerRed source + d ≤ 255) :
    Decode.depthOf (Encode procs coin mcoin source hidden d)
      (cloneWithBounds source source.Bounds) source.Bounds.Dx source.Bounds.Dy 0 = d := by
  obtain ⟨hw, hh⟩ := (empty_false_iff _).mp hne
  obtain ⟨_, e, he, hcase⟩ := encode_marker_get procs coin mcoin source hidden d hne hd hsafe
  have hs := clone_marker_getD source hne
  rw [cloneAs_eq] at hs
  have hE : (Encode procs coin mcoin source hidden d).Pix.getD
      (markerIndex source.Bounds.Dx source.Bounds.Dy) 0 = e := by
    rw [List.getD_eq_getElem?_getD, he]; rfl
  have hm : ((source.Bounds.Dy - 1) * (4 * source.Bounds.Dx) + (source.Bounds.Dx - 1) * 4 + 0).toNat
      = markerIndex source.Bounds.Dx source.Bounds.Dy := rfl
  have hsl := markerRed_lt source
  have hel : e < 256 := by
    rw [← hE]; exact encode_getD_lt procs coin mcoin source hidden d hne _
  simp only [Decode.depthOf, if_true, pixGet, clone_stride, hm, hs, hE]
  rw [decode_abs_sub _ _ hsl hel]
  split_ifs <;> omega

/-- C2 (as stated) fails: for the 1x1 source `(100, 0, 0, 255)` and depth 200,
decoding with depth 0 gives the red byte 255 where decoding with depth 200
gives 71. -/
theorem decode_infer_counterexample :
    (Decode 1 (Encode 1 (fun _ => false) false onePixel onePixel 200).toImage onePixel 0).Pix[0]?
      = some 255 ∧
    (Decode 1 (Encode 1 (fun _ => false) false onePixel onePixel 200).toImage onePixel 200).Pix[0]?
      = some 71 ∧
    Decode 1 (Encode 1 (fun _ => false) false onePixel onePixel 200).toImage onePixel 0 ≠
      Decode 1 (Encode 1 (fun _ => false) false onePixel onePixel 200).toImage onePixel 200 := by
  have h0 : (Decode 1 (Encode 1 (fun _ => false) false onePixel onePixel 200).toImage
      onePixel 0).Pix[0]? = some 255 := by decide
  have h1 : (Decode 1 (Encode 1 (fun _ => false) false onePixel onePixel 200).toImage
      onePixel 200).Pix[0]? = some 71 := by decide
  refine ⟨h0, h1, fun hc => ?_⟩
  rw [hc, h1] at h0
  exact absurd h0 (by decide)

/-- C2 (amended). Depth inference round trip: for every non-empty source, hidden
image, depth `0 < d` and outcome of the random draws, `Decode` with depth 0 infers
`d` from the result of `Encode` and returns the same image as `Decode` with depth
`d`, provided the red byte `s` of the source's bottom-right pixel satisfies `d ≤ s`
or `s + d ≤ 255` (which holds for every `s` when `d ≤ 128`). -/
theorem decode_infers_depth (procs procs' : Int) (coin : Nat → Bool) (mcoin : Bool)
    (source hidden : Image) (d : Nat) (hne : source.Bounds.Empty = false) (hd0 : 0 < d)
    (hd : d < 256)
    (hsafe : d ≤ 128 ∨ d ≤ markerRed source ∨ markerRed source + d ≤ 255) :
    Decode.depthOf (cloneAsRGBA (Encode procs coin mcoin source hidden d).toImage)
      (cloneWithBounds source (Encode procs coin mcoin source hidden d).toImage.Bounds)
      (Encode procs coin mcoin source hidden d).toImage.Bounds.Dx
      (Encode procs coin mcoin source hidden d).toImage.Bounds.Dy 0 = d ∧
    Decode procs' (Encode procs coin mcoin source hidden d).toImage source 0 =
      Decode procs' (Encode procs coin mcoin source hidden d).toImage source d := by
  have hb : (Encode procs coin mcoin source hidden d).toImage.Bounds = source.Bounds :=
    (encode_fields procs coin mcoin source hidden d hne).1
  have hre := encode_reclone procs coin mcoin source hidden d hne
  have hdep := depthOf_encode procs coin mcoin source hidden d hne hd0 hd hsafe
  have hdep' : Decode.depthOf (Encode procs coin mcoin source hidden d)
      (cloneWithBounds source source.Bounds) source.Bounds.Dx source.Bounds.Dy d = d := by
    unfold Decode.depthOf
    rw [if_neg (by omega)]
  refine ⟨by rw [hre, hb]; exact hdep, ?_⟩
  unfold Decode
  simp only [hre]
  have hr : (Encode procs coin mcoin source hidden d).Rect = source.Bounds :=
    (encode_fields procs coin mcoin source hidden d hne).1
  simp only [hr, hdep, hdep']

/-- C2 (amended) at the 1x1 source `(100, 0, 0, 255)` and depth 10. -/
theorem decode_infers_depth_witness :
    Decode 1 (Encode 1 (fun _ => false) false onePixel onePixel 10).toImage onePixel 0 =
      Decode 1 (Encode 1 (fun _ => false) false onePixel onePixel 10).toImage onePixel 10 :=
  (decode_infers_depth 1 1 (fun _ => false) false onePixel onePixel 10 (by decide) (by decide)
    (by decide) (by decide)).2

/-! ## Range of the encoded bytes -/

/-- C4 (as stated) fails: at `s = 100`, `h = 255`, `d = 200` the perturbation is
`p = 200`, and `calc` returns 156, which is neither `s + p` nor `s - p`: the
subtraction wrapped modulo 256. -/
theorem calc_range_counterexample :
    Encode.level 255 0 200 = 200 ∧ Encode.calc 200 true 100 255 = 156 ∧
    ¬ ((Encode.calc 200 true 100 255 = 100 + Encode.level 255 0 200 ∧
          100 + Encode.level 255 0 200 ≤ 255) ∨
       (Encode.level 255 0 200 ≤ 100 ∧
          Encode.calc 200 true 100 255 + Encode.level 255 0 200 = 100)) := by
  decide

/-- C4 (amended). For all bytes `s`, `h`, `d` and either outcome of the draw, with
`p = level(h, 0, d)`: when `p ≤ s` or `s + p ≤ 255` (as is always the case for
`d ≤ 128`), `calc(s, h)` is `s + p` with `s + p ≤ 255` or `s - p` with `p ≤ s`,
computed without wraparound. -/
theorem calc_range (d : Nat) (coin : Bool) (s h : Nat) (hs : s < 256) (hh : h < 256)
    (hd : d < 256)
    (hsafe : d ≤ 128 ∨ Encode.level h 0 d ≤ s ∨ s + Encode.level h 0 d ≤ 255) :
    (Encode.calc d coin s h = s + Encode.level h 0 d ∧ s + Encode.level h 0 d ≤ 255) ∨
    (Encode.level h 0 d ≤ s ∧ Encode.calc d coin s h + Encode.level h 0 d = s) := by
  have hp := encode_level_le h d hh hd
  rw [encode_calc_eq d coin s h hs]
  split_ifs <;> omega

/-- C4 (amended) at `s = 250`, `h = 255`, `d = 10`: the forced subtraction. -/
theorem calc_range_witness :
    (Encode.calc 10 false 250 255 = 250 + Encode.level 255 0 10 ∧
        250 + Encode.level 255 0 10 ≤ 255) ∨
    (Encode.level 255 0 10 ≤ 250 ∧ Encode.calc 10 false 250 255 + Encode.level 255 0 10 = 250) :=
  calc_range 10 false 250 255 (by decide) (by decide) (by decide) (by decide)

/-- The byte `calc` returns is within `d` of the source byte, wraparound
included. -/
theorem calc_within_depth (d : Nat) (coin : Bool) (s h : Nat) (hs : s < 256) (hh : h < 256)
    (hd : d < 256) :
    Encode.calc d coin s h ≤ s + d ∧ s ≤ Encode.calc d coin s h + d := by
  have hp := encode_level_le h d hh hd
  rw [encode_calc_eq d coin s h hs]
  split_ifs <;> omega

/-- C7. Depth bounds the perturbation: for all bytes `s`, `h`, `d` and either
outcome of the draw, the byte `calc(s, h)` returns (modulo-256 wraparound included)
is within `d` of `s`; hence every R, G, B byte of the image `Encode` returns, the
marker byte included, is within `d` of the byte of the source at the same index. -/
theorem encode_within_depth (d : Nat) (hd : d < 256) :
    (∀ (coin : Bool) (s h : Nat), s < 256 → h < 256 →
      Encode.calc d coin s h ≤ s + d ∧ s ≤ Encode.calc d coin s h + d) ∧
    (∀ (procs : Int) (coin : Nat → Bool) (mcoin : Bool) (source hidden : Image),
      source.Bounds.Empty = false →
      ∀ i, i < (4 * source.Bounds.Dx * source.Bounds.Dy).toNat → i % 4 ≠ 3 →
        ∃ s e, (cloneAsRGBA source).Pix[i]? = some s ∧
          (Encode procs coin mcoin source hidden d).Pix[i]? = some e ∧
          e ≤ s + d ∧ s ≤ e + d) := by
  refine ⟨fun coin s h hs hh => calc_within_depth d coin s h hs hh hd, ?_⟩
  intro procs coin mcoin source hidden hne i hi hi3
  have hsl : (cloneAsRGBA source).Pix.getD i 0 < 256 := clone_getD_lt _ _ _
  have hsrc : (cloneAsRGBA source).Pix[i]? = some ((cloneAsRGBA source).Pix.getD i 0) := by
    have hl : i < (cloneAsRGBA source).Pix.length := by
      rw [cloneAs_eq, clone_length]; exact hi
    rw [List.getElem?_eq_getElem hl, List.getD_eq_getElem _ _ hl]
  refine ⟨_, _, hsrc, encode_get procs coin mcoin source hidden d hne i hi, ?_⟩
  split_ifs
  · exact calc_within_depth d mcoin _ 255 hsl (by omega) hd
  · unfold Encode.byteAt
    rw [if_neg hi3]
    exact calc_within_depth d (coin i) _ _ hsl (clone_getD_lt _ _ _) hd

/-- C7 at depth 200. -/
theorem encode_within_depth_witness :
    Encode.calc 200 true 100 255 ≤ 100 + 200 ∧ 100 ≤ Encode.calc 200 true 100 255 + 200 :=
  (encode_within_depth 200 (by decide)).1 true 100 255 (by decide) (by decide)

/-! ## Bounds and alpha of the encoded image -/

/-- C6. For every non-empty source, every hidden image, every depth and every
outcome of the random draws, the image `Encode` returns has the bounds of the
source, hence its width and height, and at every pixel, the marker pixel
included, its alpha byte is the alpha byte of the source at that pixel. -/
theorem encode_bounds_alpha (procs : Int) (coin : Nat → Bool) (mcoin : Bool)
    (source hidden : Image) (d : Nat) (hne : source.Bounds.Empty = false) :
    (Encode procs coin mcoin source hidden d).Rect = source.Bounds ∧
    (Encode procs coin mcoin source hidden d).Rect.Dx = source.Bounds.Dx ∧
    (Encode procs coin mcoin source hidden d).Rect.Dy = source.Bounds.Dy ∧
    ∀ x y : Int, 0 ≤ x → x < source.Bounds.Dx → 0 ≤ y → y < source.Bounds.Dy →
      (Encode procs coin mcoin source hidden d).Pix[
          (y * (Encode procs coin mcoin source hidden d).Stride + x * 4 + 3).toNat]?
        = some (toByte (source.At (source.Bounds.Min.X + x) (source.Bounds.Min.Y + y)).A) ∧
      (cloneAsRGBA source).Pix[(y * (cloneAsRGBA source).Stride + x * 4 + 3).toNat]?
        = some (toByte (source.At (source.Bounds.Min.X + x) (source.Bounds.Min.Y + y)).A) := by
  obtain ⟨h1, h2, h3⟩ := encode_fields procs coin mcoin source hidden d hne
  refine ⟨h1, by rw [h1], by rw [h1], ?_⟩
  intro x y hx0 hx hy0 hy
  have hp := pos_bounds source.Bounds.Dx source.Bounds.Dy x y hx0 hx hy0 hy
  have hm := marker_lt source.Bounds.Dx source.Bounds.Dy (by omega) (by omega)
  have hsrc := clone_pixel source x y 3 hx0 hx hy0 hy (by decide)
  have hchan : ∀ k : Color, k.chan 3 = k.A := fun k => rfl
  rw [hchan] at hsrc
  have hcast : ((3 : Nat) : Int) = 3 := rfl
  rw [hcast] at hsrc
  rw [h2, cloneAs_eq, clone_stride, ← cloneAs_eq]
  refine ⟨?_, hsrc⟩
  rw [encode_get procs coin mcoin source hidden d hne _ (by omega)]
  rw [if_neg (by omega)]
  unfold Encode.byteAt
  rw [if_pos (by omega), List.getD_eq_getElem?_getD, hsrc]
  rfl

/-- C6 at the bottom-right pixel of the 2x2 gray source. -/
theorem encode_bounds_alpha_witness :
    (Encode 4 (fun _ => true) false graySource whiteHidden 10).Pix[
        (1 * (Encode 4 (fun _ => true) false graySource whiteHidden 10).Stride + 1 * 4 + 3).toNat]?
      = some (toByte (graySource.At (graySource.Bounds.Min.X + 1)
          (graySource.Bounds.Min.Y + 1)).A) :=
  ((encode_bounds_alpha 4 (fun _ => true) false graySource whiteHidden 10 (by decide)).2.2.2
    1 1 (by decide) (by decide) (by decide) (by decide)).1

/-! ## The approximate round trip -/

theorem quantStep_ge (d : Nat) (hd0 : 0 < d) : 254 / d + 1 ≤ quantStep d + 1 := by
  unfold quantStep
  have h1 : 254 / d * d ≤ 254 := Nat.div_mul_le_self 254 d
  have h2 : 254 / d * (2 * d) = 2 * (254 / d * d) := by ring
  have h3 : 254 / d ≤ (512 + d) / (2 * d) := by
    rw [Nat.le_div_iff_mul_le (by omega)]
    omega
  omega

/-- Decoding an encoded byte at depth `d`, where neither forced branch of `calc`
applies: the result is at most `h` and falls short of it by at most
`254 / d + 1`. -/
theorem roundtrip_channel (d : Nat) (coin : Bool) (s h : Nat) (hs : s < 256) (hh : h < 256)
    (hd0 : 0 < d) (hd : d < 256) (hlo : h * d / 255 ≤ s) (hhi : s + h * d / 255 ≤ 255) :
    Decode.level d (Decode.abs ((s : Int) - (Encode.calc d coin s h : Int))) 0 255 ≤ h ∧
    h ≤ Decode.level d (Decode.abs ((s : Int) - (Encode.calc d coin s h : Int))) 0 255
      + (254 / d + 1) := by
  have hp1 := encode_level_le_exact h d hh hd
  have hp2 := encode_level_le h d hh hd
  have hb := encode_level_bounds h d hh hd
  have hc : Decode.abs ((s : Int) - (Encode.calc d coin s h : Int)) = Encode.level h 0 d := by
    have hcl := encode_calc_lt d coin s h
    rw [decode_abs_sub s _ hs hcl, encode_calc_eq d coin s h hs]
    split_ifs <;> omega
  rw [hc, decode_level_eq d _ hp2 hd0 hd]
  generalize Encode.level h 0 d = p at hp1 hp2 hb
  have e1 := Nat.div_add_mod (p * 255) d
  have e2 := Nat.mod_lt (p * 255) hd0
  have e3 := Nat.div_add_mod 254 d
  have e4 := Nat.mod_lt 254 hd0
  constructor
  · apply Nat.div_le_of_le_mul
    have : d * h = h * d := Nat.mul_comm d h
    omega
  · by_contra hcon
    have h5 : (p * 255 / d + (254 / d + 1) + 1) * d ≤ h * d :=
      Nat.mul_le_mul_right d (by omega)
    have h6 : (p * 255 / d + (254 / d + 1) + 1) * d
        = d * (p * 255 / d) + d * (254 / d) + 2 * d := by ring
    omega

/-- C3 (as stated) fails: for the 1x1 source `(100, 100, 100, 255)`, hidden pixel
`(139, 139, 139, 255)` and depth 11, the decoded green byte is 115 for either
outcome of the draw; it differs from the hidden byte 139 by 24, above
`round(256 / 11) = 23`, and no forced branch applies (`p = 5 ≤ 100 ≤ 250`). -/
theorem roundtrip_counterexample :
    (cloneAsRGBA grayPixel).Pix[1]? = some 100 ∧
    (cloneWithBounds hiddenPixel grayPixel.Bounds).Pix[1]? = some 139 ∧
    139 * 11 / 255 = 5 ∧ 1 ≠ markerIndex 1 1 ∧
    (Decode 1 (Encode 1 (fun _ => false) false grayPixel hiddenPixel 11).toImage
      grayPixel 11).Pix[1]? = some 115 ∧
    (Decode 1 (Encode 1 (fun _ => true) false grayPixel hiddenPixel 11).toImage
      grayPixel 11).Pix[1]? = some 115 ∧
    quantStep 11 = 23 ∧ ¬ (139 - 115 ≤ quantStep 11) := by
  decide

/-- C3 (amended). Approximate round trip: for every depth `d ≥ 1`, at every R, G, B
byte other than the marker byte where neither forced branch of `calc` applies
(`p ≤ s ≤ 255 - p` for the source byte `s`, the hidden byte `h` and
`p = h * d / 255`), the byte `r` that `Decode(Encode(source, hidden, d), source, d)`
reconstructs satisfies `r ≤ h ≤ r + ⌈255 / d⌉`, where `⌈255 / d⌉ = 254 / d + 1` is at
most `round(256 / d) + 1`; this holds for either outcome of every draw and with the
`float64` arithmetic of the code. -/
theorem roundtrip_within_step (procs procs' : Int) (coin : Nat → Bool) (mcoin : Bool)
    (source hidden : Image) (d : Nat) (i : Nat)
    (hne : source.Bounds.Empty = false) (hd0 : 0 < d) (hd : d < 256)
    (hi : i < (4 * source.Bounds.Dx * source.Bounds.Dy).toNat) (hi3 : i % 4 ≠ 3)
    (him : i ≠ markerIndex source.Bounds.Dx source.Bounds.Dy)
    (hlo : (cloneWithBounds hidden source.Bounds).Pix.getD i 0 * d / 255
      ≤ (cloneAsRGBA source).Pix.getD i 0)
    (hhi : (cloneAsRGBA source).Pix.getD i 0
      + (cloneWithBounds hidden source.Bounds).Pix.getD i 0 * d / 255 ≤ 255) :
    ∃ r, (Decode procs' (Encode procs coin mcoin source hidden d).toImage source d).Pix[i]?
        = some r ∧
      r ≤ (cloneWithBounds hidden source.Bounds).Pix.getD i 0 ∧
      (cloneWithBounds hidden source.Bounds).Pix.getD i 0 ≤ r + (254 / d + 1) ∧
      254 / d + 1 ≤ quantStep d + 1 := by
  have hb : (Encode procs coin mcoin source hidden d).toImage.Bounds = source.Bounds :=
    (encode_fields procs coin mcoin source hidden d hne).1
  have hre := encode_reclone procs coin mcoin source hidden d hne
  have hne' : (Encode procs coin mcoin source hidden d).toImage.Bounds.Empty = false := by
    rw [hb]; exact hne
  have hg := decode_get procs' (Encode procs coin mcoin source hidden d).toImage source d hne' i
    (by rw [hb]; exact hi)
  rw [hre, hb] at hg
  have hdep : Decode.depthOf (Encode procs coin mcoin source hidden d)
      (cloneWithBounds source source.Bounds) source.Bounds.Dx source.Bounds.Dy d = d := by
    unfold Decode.depthOf
    rw [if_neg (by omega)]
  rw [hdep] at hg
  have hE : (Encode procs coin mcoin source hidden d).Pix.getD i 0 =
      Encode.calc d (coin i) ((cloneAsRGBA source).Pix.getD i 0)
        ((cloneWithBounds hidden source.Bounds).Pix.getD i 0) := by
    rw [List.getD_eq_getElem?_getD (Encode procs coin mcoin source hidden d).Pix,
      encode_get procs coin mcoin source hidden d hne i hi, if_neg him]
    unfold Encode.byteAt
    rw [if_neg hi3]
    rfl
  unfold Decode.byteAt at hg
  rw [if_neg hi3, hE, ← cloneAs_eq] at hg
  have hrt := roundtrip_channel d (coin i) _ _ (clone_getD_lt source source.Bounds i)
    (clone_getD_lt hidden source.Bounds i) hd0 hd hlo hhi
  exact ⟨_, hg, hrt.1, hrt.2, quantStep_ge d hd0⟩

/-- C3 (amended) at the green byte of the 1x1 source `(100, 100, 100, 255)` with
hidden pixel `(139, 139, 139, 255)` and depth 11. -/
theorem roundtrip_within_step_witness :
    ∃ r, (Decode 1 (Encode 1 (fun _ => false) false grayPixel hiddenPixel 11).toImage
        grayPixel 11).Pix[1]? = some r ∧
      r ≤ (cloneWithBounds hiddenPixel grayPixel.Bounds).Pix.getD 1 0 ∧
      (cloneWithBounds hiddenPixel grayPixel.Bounds).Pix.getD 1 0 ≤ r + (254 / 11 + 1) ∧
      254 / 11 + 1 ≤ quantStep 11 + 1 :=
  roundtrip_within_step 1 1 (fun _ => false) false grayPixel hiddenPixel 11 1 (by decide)
    (by decide) (by decide) (by decide) (by decide) (by decide) (by decide) (by decide)

/-! ## The rescale and the depth of `Decode` -/

theorem depthOf_pos (enc src : RGBA) (w h : Int) (depth : Nat) :
    Decode.depthOf enc src w h depth ≠ 0 := by
  unfold Decode.depthOf
  simp only []
  split_ifs <;> omega

theorem decode_abs_lt (a : Int) : Decode.abs a < 256 := by
  unfold Decode.abs
  split_ifs <;> omega

theorem depthOf_lt (enc src : RGBA) (w h : Int) (depth : Nat) (hd : depth < 256) :
    Decode.depthOf enc src w h depth < 256 := by
  unfold Decode.depthOf
  simp only []
  split_ifs
  · omega
  · exact decode_abs_lt _
  · exact hd

/-- C8. The rescale of `Decode`: for every depth in `1..255` and all bytes `s`, `e`
with `diff = |s - e| ≤ depth`, the output byte is `diff * 255 / depth`, which is at
most 255, is 0 for `diff = 0` and 255 for `diff = depth`, and does not decrease
when `diff` grows.  In the image `Decode` returns, with its effective depth, every
R, G, B byte is this rescale of the difference of the aligned source byte and the
encoded byte, and every alpha byte is the alpha byte of the aligned source. -/
theorem decode_rescale (depth : Nat) (h0 : 0 < depth) (hd : depth < 256) :
    (∀ s e : Nat, s < 256 → e < 256 → Decode.abs ((s : Int) - (e : Int)) ≤ depth →
      Decode.abs ((s : Int) - (e : Int)) = (if s ≤ e then e - s else s - e) ∧
      Decode.level depth (Decode.abs ((s : Int) - (e : Int))) 0 255
        = Decode.abs ((s : Int) - (e : Int)) * 255 / depth ∧
      Decode.abs ((s : Int) - (e : Int)) * 255 / depth ≤ 255) ∧
    Decode.level depth 0 0 255 = 0 ∧
    Decode.level depth depth 0 255 = 255 ∧
    (∀ n m : Nat, n ≤ m → m ≤ depth →
      Decode.level depth n 0 255 ≤ Decode.level depth m 0 255) ∧
    (∀ (procs : Int) (encoded source : Image) (dep : Nat), encoded.Bounds.Empty = false →
      Decode.depthOf (cloneAsRGBA encoded) (cloneWithBounds source encoded.Bounds)
        encoded.Bounds.Dx encoded.Bounds.Dy dep = depth →
      ∀ i, i < (4 * encoded.Bounds.Dx * encoded.Bounds.Dy).toNat →
        (i % 4 ≠ 3 → (Decode procs encoded source dep).Pix[i]? = some
          (Decode.level depth (Decode.abs
            (((cloneWithBounds source encoded.Bounds).Pix.getD i 0 : Int)
              - ((cloneAsRGBA encoded).Pix.getD i 0 : Int))) 0 255)) ∧
        (i % 4 = 3 → (Decode procs encoded source dep).Pix[i]?
          = (cloneWithBounds source encoded.Bounds).Pix[i]?)) := by
  refine ⟨?_, ?_, ?_, ?_, ?_⟩
  · intro s e hs he hdiff
    refine ⟨decode_abs_sub s e hs he, decode_level_eq depth _ hdiff h0 hd, ?_⟩
    apply Nat.div_le_of_le_mul
    have : Decode.abs ((s : Int) - (e : Int)) * 255 ≤ depth * 255 :=
      Nat.mul_le_mul_right 255 hdiff
    omega
  · rw [decode_level_eq depth 0 (by omega) h0 hd]
    simp
  · rw [decode_level_eq depth depth (le_refl _) h0 hd]
    exact Nat.mul_div_cancel_left 255 h0
  · intro n m hnm hm
    rw [decode_level_eq depth n (by omega) h0 hd, decode_level_eq depth m hm h0 hd]
    exact Nat.div_le_div_right (Nat.mul_le_mul_right 255 hnm)
  · intro procs encoded source dep hne hdep i hi
    have hg := decode_get procs encoded source dep hne i hi
    rw [hdep] at hg
    unfold Decode.byteAt at hg
    constructor
    · intro hi3
      rw [if_neg hi3] at hg
      exact hg
    · intro hi3
      rw [if_pos hi3] at hg
      rw [hg]
      have hl : i < (cloneWithBounds source encoded.Bounds).Pix.length := by
        rw [clone_length]; exact hi
      rw [List.getElem?_eq_getElem hl, List.getD_eq_getElem _ _ hl]

/-- C8 at depth 10: a difference of 4 is rescaled to 102. -/
theorem decode_rescale_witness :
    Decode.abs ((128 : Nat) - (132 : Nat) : Int) = (if 128 ≤ 132 then 132 - 128 else 128 - 132) ∧
    Decode.level 10 (Decode.abs ((128 : Nat) - (132 : Nat) : Int)) 0 255
      = Decode.abs ((128 : Nat) - (132 : Nat) : Int) * 255 / 10 ∧
    Decode.abs ((128 : Nat) - (132 : Nat) : Int) * 255 / 10 ≤ 255 :=
  (decode_rescale 10 (by decide) (by decide)).1 128 132 (by decide) (by decide) (by decide)

/-- C9. Depth default: for every non-empty encoded image and every source, the
depth `Decode` uses when called with depth 0 is the difference of the red bytes of
the bottom-right pixel of the aligned source and of the encoded image when they
differ, and 10 when they agree; whatever depth is passed, the depth used, which
divides in the rescale of every byte, is not 0. -/
theorem decode_depth_default (encoded source : Image) (hne : encoded.Bounds.Empty = false) :
    Decode.depthOf (cloneAsRGBA encoded) (cloneWithBounds source encoded.Bounds)
        encoded.Bounds.Dx encoded.Bounds.Dy 0
      = (if (cloneWithBounds source encoded.Bounds).Pix.getD
            (markerIndex encoded.Bounds.Dx encoded.Bounds.Dy) 0
          = (cloneAsRGBA encoded).Pix.getD (markerIndex encoded.Bounds.Dx encoded.Bounds.Dy) 0
        then 10
        else if (cloneWithBounds source encoded.Bounds).Pix.getD
            (markerIndex encoded.Bounds.Dx encoded.Bounds.Dy) 0
          ≤ (cloneAsRGBA encoded).Pix.getD (markerIndex encoded.Bounds.Dx encoded.Bounds.Dy) 0
        then (cloneAsRGBA encoded).Pix.getD (markerIndex encoded.Bounds.Dx encoded.Bounds.Dy) 0
          - (cloneWithBounds source encoded.Bounds).Pix.getD
            (markerIndex encoded.Bounds.Dx encoded.Bounds.Dy) 0
        else (cloneWithBounds source encoded.Bounds).Pix.getD
            (markerIndex encoded.Bounds.Dx encoded.Bounds.Dy) 0
          - (cloneAsRGBA encoded).Pix.getD (markerIndex encoded.Bounds.Dx encoded.Bounds.Dy) 0) ∧
    (cloneAsRGBA encoded).Pix[markerIndex encoded.Bounds.Dx encoded.Bounds.Dy]?
      = some (markerRed encoded) ∧
    (∀ dep : Nat,
      Decode.depthOf (cloneAsRGBA encoded) (cloneWithBounds source encoded.Bounds)
        encoded.Bounds.Dx encoded.Bounds.Dy dep ≠ 0) ∧
    (∀ (procs : Int) (dep i : Nat), i < (4 * encoded.Bounds.Dx * encoded.Bounds.Dy).toNat →
      (Decode procs encoded source dep).Pix[i]? = some
        (Decode.byteAt
          (Decode.depthOf (cloneAsRGBA encoded) (cloneWithBounds source encoded.Bounds)
            encoded.Bounds.Dx encoded.Bounds.Dy dep)
          (cloneAsRGBA encoded) (cloneWithBounds source encoded.Bounds) i)) := by
  refine ⟨?_, clone_marker encoded hne, fun dep => depthOf_pos _ _ _ _ dep,
    fun procs dep i hi => decode_get procs encoded source dep hne i hi⟩
  have hm : ((encoded.Bounds.Dy - 1) * (4 * encoded.Bounds.Dx) + (encoded.Bounds.Dx - 1) * 4
      + 0).toNat = markerIndex encoded.Bounds.Dx encoded.Bounds.Dy := rfl
  have hs := clone_getD_lt source encoded.Bounds (markerIndex encoded.Bounds.Dx encoded.Bounds.Dy)
  have he := clone_getD_lt encoded encoded.Bounds (markerIndex encoded.Bounds.Dx encoded.Bounds.Dy)
  simp only [Decode.depthOf, if_true, pixGet, clone_stride, hm]
  rw [cloneAs_eq, decode_abs_sub _ _ hs he]
  split_ifs <;> omega

/-- C9 at the 1x1 image `(100, 0, 0, 255)` decoded against itself: the red bytes
agree and the depth used is 10. -/
theorem decode_depth_default_witness :
    Decode.depthOf (cloneAsRGBA onePixel) (cloneWithBounds onePixel onePixel.Bounds)
      onePixel.Bounds.Dx onePixel.Bounds.Dy 0 = 10 := by
  have h := (decode_depth_default onePixel onePixel (by decide)).1
  rw [h]
  decide

/-! ## The worked scenario: gray source, white hidden image, depth 10 -/

theorem calc_gray (c : Bool) :
    Encode.calc 10 c 128 255 = 118 ∨ Encode.calc 10 c 128 255 = 138 := by
  cases c <;> decide

theorem graySource_pix :
    (cloneAsRGBA graySource).Pix
      = [128, 128, 128, 255, 128, 128, 128, 255, 128, 128, 128, 255, 128, 128, 128, 255] := by
  decide

theorem whiteHidden_pix :
    (cloneWithBounds whiteHidden graySource.Bounds).Pix
      = [255, 255, 255, 255, 255, 255, 255, 255, 255, 255, 255, 255, 255, 255, 255, 255] := by
  decide

/-- Bytes of the encoded scenario image. -/
theorem scenario_encode (procs : Int) (coin : Nat → Bool) (mcoin : Bool) (i : Nat)
    (hi : i < 16) :
    (i % 4 = 3 → (Encode procs coin mcoin graySource whiteHidden 10).Pix[i]? = some 255) ∧
    (i % 4 ≠ 3 → (Encode procs coin mcoin graySource whiteHidden 10).Pix[i]? = some 118 ∨
      (Encode procs coin mcoin graySource whiteHidden 10).Pix[i]? = some 138) := by
  have hg := encode_get procs coin mcoin graySource whiteHidden 10 (by decide) i hi
  have hm : markerIndex graySource.Bounds.Dx graySource.Bounds.Dy = 12 := by decide
  rw [hm, graySource_pix] at hg
  unfold Encode.byteAt at hg
  rw [graySource_pix, whiteHidden_pix] at hg
  rw [hg]
  have hc := calc_gray (coin i)
  have hcm := calc_gray mcoin
  interval_cases i <;> simp <;> first | exact hc | exact hcm

/-- C10. The concrete scenario: for the 2x2 source whose pixels are all
`(128, 128, 128, 255)`, the 2x2 hidden image whose pixels are all
`(255, 255, 255, 255)` and depth 10, for every outcome of the random draws every
R, G, B byte of the image `Encode` returns, those of the marker pixel included, is
118 or 138 and every alpha byte is 255; `Decode` of that image against the gray
source with depth 10 gives 255 in every R, G, B byte. -/
theorem scenario_gray_white (procs procs' : Int) (coin : Nat → Bool) (mcoin : Bool) :
    (Encode procs coin mcoin graySource whiteHidden 10).Pix.length = 16 ∧
    (Decode procs' (Encode procs coin mcoin graySource whiteHidden 10).toImage
      graySource 10).Pix.length = 16 ∧
    ∀ i, i < 16 →
      (i % 4 = 3 → (Encode procs coin mcoin graySource whiteHidden 10).Pix[i]? = some 255) ∧
      (i % 4 ≠ 3 → ((Encode procs coin mcoin graySource whiteHidden 10).Pix[i]? = some 118 ∨
        (Encode procs coin mcoin graySource whiteHidden 10).Pix[i]? = some 138) ∧
        (Decode procs' (Encode procs coin mcoin graySource whiteHidden 10).toImage
          graySource 10).Pix[i]? = some 255) := by
  have hne : graySource.Bounds.Empty = false := by decide
  have hb : (Encode procs coin mcoin graySource whiteHidden 10).toImage.Bounds
      = graySource.Bounds := (encode_fields procs coin mcoin graySource whiteHidden 10 hne).1
  have hre := encode_reclone procs coin mcoin graySource whiteHidden 10 hne
  have hne' : (Encode procs coin mcoin graySource whiteHidden 10).toImage.Bounds.Empty
      = false := by rw [hb]; exact hne
  refine ⟨(encode_fields procs coin mcoin graySource whiteHidden 10 hne).2.2, ?_, ?_⟩
  · rw [(decode_fields procs' _ graySource 10 hne').2.2, hb]
    rfl
  intro i hi
  have henc := scenario_encode procs coin mcoin i hi
  refine ⟨henc.1, fun hi3 => ⟨henc.2 hi3, ?_⟩⟩
  have hg := decode_get procs' (Encode procs coin mcoin graySource whiteHidden 10).toImage
    graySource 10 hne' i (by rw [hb]; exact hi)
  rw [hre, hb] at hg
  have hdep : Decode.depthOf (Encode procs coin mcoin graySource whiteHidden 10)
      (cloneWithBounds graySource graySource.Bounds) graySource.Bounds.Dx
      graySource.Bounds.Dy 10 = 10 := rfl
  rw [hdep] at hg
  unfold Decode.byteAt at hg
  rw [if_neg hi3, ← cloneAs_eq, graySource_pix] at hg
  rw [hg]
  have hs : [128, 128, 128, 255, 128, 128, 128, 255, 128, 128, 128, 255, 128, 128, 128,
      255].getD i 0 = 128 := by
    interval_cases i <;> first | rfl | exact absurd rfl hi3
  rw [hs]
  rcases henc.2 hi3 with h | h
  · rw [List.getD_eq_getElem?_getD, h]
    decide
  · rw [List.getD_eq_getElem?_getD, h]
    decide

/-- C10 at the red byte of the first pixel. -/
theorem scenario_gray_white_witness :
    ((Encode 4 (fun _ => true) false graySource whiteHidden 10).Pix[0]? = some 118 ∨
      (Encode 4 (fun _ => true) false graySource whiteHidden 10).Pix[0]? = some 138) ∧
    (Decode 4 (Encode 4 (fun _ => true) false graySource whiteHidden 10).toImage
      graySource 10).Pix[0]? = some 255 :=
  ((scenario_gray_white 4 4 (fun _ => true) false).2.2 0 (by decide)).2 (by decide)

/-! ## Empty input -/

theorem empty_true_of_zero (r : Rectangle) (hz : r.Dx = 0 ∨ r.Dy = 0) : r.Empty = true := by
  unfold Rectangle.Empty
  unfold Rectangle.Dx Rectangle.Dy at hz
  simp only [Bool.or_eq_true, decide_eq_true_eq]
  omega

theorem clone_empty_pix (s : Image) (b : Rectangle) (hz : b.Dx = 0 ∨ b.Dy = 0) :
    (cloneWithBounds s b).Pix = [] := by
  apply List.eq_nil_of_length_eq_zero
  rw [clone_length]
  rcases hz with h | h <;> rw [h] <;> simp

/-- C11. Empty input: for every depth and every second image, when the first image
(the source for `Encode`, the encoded image for `Decode`) has zero width or zero
height (its bounds being well formed, `Min ≤ Max`), `Encode` and `Decode` each
return `image.RGBA{}`, which has no pixel data and an empty rectangle.  The early
return is taken (the bounds of the clone are empty), so neither the marker pixel
is read nor the per-pixel pass run: the buffer of the clone has no byte at all. -/
theorem empty_input (procs : Int) (coin : Nat → Bool) (mcoin : Bool) (first second : Image)
    (depth : Nat) (_hwf : 0 ≤ first.Bounds.Dx ∧ 0 ≤ first.Bounds.Dy)
    (hz : first.Bounds.Dx = 0 ∨ first.Bounds.Dy = 0) :
    Encode procs coin mcoin first second depth = RGBA.zero ∧
    Decode procs first second depth = RGBA.zero ∧
    RGBA.zero.Pix = [] ∧ RGBA.zero.Rect.Dx = 0 ∧ RGBA.zero.Rect.Dy = 0 ∧
    RGBA.zero.Rect.Empty = true ∧
    (cloneAsRGBA first).Rect.Empty = true ∧ (cloneAsRGBA first).Pix = [] := by
  have he : (cloneAsRGBA first).Rect.Empty = true := empty_true_of_zero _ hz
  refine ⟨?_, ?_, rfl, rfl, rfl, rfl, he, clone_empty_pix first first.Bounds hz⟩
  · unfold Encode
    simp only [he, if_true]
  · unfold Decode
    simp only [he, if_true]

/-- C11 at the image with no pixels. -/
theorem empty_input_witness :
    Encode 4 (fun _ => true) true noPixels graySource 10 = RGBA.zero ∧
    Decode 4 noPixels graySource 0 = RGBA.zero :=
  ⟨(empty_input 4 (fun _ => true) true noPixels graySource 10 (by decide) (by decide)).1,
   (empty_input 4 (fun _ => true) true noPixels graySource 0 (by decide) (by decide)).2.1⟩

/-! ## Where the depth is stored -/

/-- C12 on the code: for the 2x2 gray source, the black hidden image and depth 10,
the red byte of the top-left pixel of the encoded image is 128, the source byte
itself, while that of the bottom-right pixel is 138; and `Decode` with depth 0 of
an image whose top-left red byte differs from the source by 50, the bottom-right
bytes agreeing, works with depth 10, not 50.  The depth is stored in, and read
from, the bottom-right pixel. -/
theorem depth_pixel_is_bottom_right :
    (cloneAsRGBA graySource).Pix[0]? = some 128 ∧
    (Encode 1 (fun _ => false) false graySource blackHidden 10).Pix[0]? = some 128 ∧
    (Encode 1 (fun _ => false) false graySource blackHidden 10).Pix[markerIndex 2 2]?
      = some 138 ∧
    (cloneAsRGBA topLeftMarked).Pix[0]? = some 178 ∧
    Decode.depthOf (cloneAsRGBA topLeftMarked)
      (cloneWithBounds graySource topLeftMarked.Bounds) 2 2 0 = 10 := by
  decide

/-! ## Range of the encoder rescale -/

theorem encode_level_zero (d : Nat) (hd : d < 256) : Encode.level 0 0 d = 0 := by
  have h1 := (encode_level_bounds 0 d (by omega) hd).1
  omega

/-- The perturbation does not decrease when the hidden byte grows. -/
theorem encode_level_mono (h1 h2 d : Nat) (h12 : h1 ≤ h2) (hh : h2 < 256) (hd : d < 256) :
    Encode.level h1 0 d ≤ Encode.level h2 0 d := by
  rcases Nat.eq_or_lt_of_le h12 with he | hlt
  · rw [he]
  · have b1 := (encode_level_bounds h1 d (by omega) hd).1
    have e2 := encode_level_eq h2 d hh hd
    have hm : (h1 + 1) * d ≤ h2 * d := Nat.mul_le_mul_right d hlt
    have hx : (h1 + 1) * d = h1 * d + d := by ring
    cases hs : levelSlip h2 d
    · rw [hs] at e2
      simp only [Bool.false_eq_true, if_false] at e2
      omega
    · rw [hs] at e2
      simp only [if_true] at e2
      have hdvd := levelSlip_dvd h2 d hs
      by_cases hd0 : d = 0
      · subst hd0
        simp only [Nat.mul_zero] at b1
        omega
      · omega

/-- C13 (as stated) fails: `level(147, 0, 85)` is 48 while `147 * 85 / 255` is 49
(the `float64` product `(147 / 255) * 85` lies just below 49). -/
theorem level_floor_counterexample :
    Encode.level 147 0 85 = 48 ∧ 147 * 85 / 255 = 49 ∧
    ¬ (Encode.level 147 0 85 = 147 * 85 / 255) := by
  decide

/-- C13 (amended). Encoder rescale range: for every hidden byte `h` and every depth
byte `d`, `p = level(h, 0, d)` is `h * d / 255` rounded down, or one less than that
at the twelve pairs `(h, d)` of `levelSlipList`, where `255` divides `h * d`; in
every case `0 ≤ p ≤ d`, `level(0, 0, d) = 0`, `level(255, 0, d) = d`, and `p` does
not decrease when `h` grows. -/
theorem level_range (d : Nat) (hd : d < 256) :
    (∀ h, h < 256 →
      Encode.level h 0 d = h * d / 255 - (if levelSlipList h d then 1 else 0) ∧
      h * d / 255 ≤ Encode.level h 0 d + 1 ∧ Encode.level h 0 d ≤ h * d / 255 ∧
      (levelSlipList h d = true → h * d % 255 = 0) ∧
      Encode.level h 0 d ≤ d) ∧
    Encode.level 0 0 d = 0 ∧ Encode.level 255 0 d = d ∧
    (∀ h1 h2, h1 ≤ h2 → h2 < 256 → Encode.level h1 0 d ≤ Encode.level h2 0 d) := by
  refine ⟨?_, encode_level_zero d hd, encode_level_255 d hd,
    fun h1 h2 h12 hh => encode_level_mono h1 h2 d h12 hh hd⟩
  intro h hh
  have e := encode_level_eq h d hh hd
  have hslip : levelSlip h d = true → levelSlipList h d = true := by
    intro hs
    unfold levelSlip at hs
    cases hb : Nat.beq (Nat.mod (Nat.mul h d) 255) 0
    · rw [hb] at hs; simp at hs
    · rw [hb] at hs; exact hs
  have hlist : levelSlipList h d = true → h * d % 255 = 0 := by
    intro hl
    simp only [levelSlipList, Bool.or_eq_true, Bool.and_eq_true, Nat.beq_eq] at hl
    casesm* _ ∨ _, _ ∧ _ <;> subst_vars <;> rfl
  have hiff : levelSlip h d = levelSlipList h d := by
    cases hl : levelSlipList h d
    · cases hs : levelSlip h d
      · rfl
      · rw [hslip hs] at hl; exact absurd hl (by decide)
    · have hm := hlist hl
      unfold levelSlip
      have hb : Nat.beq (Nat.mod (Nat.mul h d) 255) 0 = true := by
        show Nat.beq (h * d % 255) 0 = true
        rw [hm]; rfl
      rw [hb, hl]; rfl
  rw [hiff] at e
  refine ⟨e, ?_, ?_, hlist, encode_level_le h d hh hd⟩
  · rw [e]; split_ifs <;> omega
  · rw [e]; split_ifs <;> omega

/-- C13 (amended) at depth 85 and hidden byte 147, one of the twelve pairs. -/
theorem level_range_witness :
    Encode.level 147 0 85 = 147 * 85 / 255 - (if levelSlipList 147 85 then 1 else 0) ∧
    147 * 85 / 255 ≤ Encode.level 147 0 85 + 1 ∧ Encode.level 147 0 85 ≤ 147 * 85 / 255 ∧
    (levelSlipList 147 85 = true → 147 * 85 % 255 = 0) ∧
    Encode.level 147 0 85 ≤ 85 :=
  (level_range 85 (by decide)).1 147 (by decide)

/-! ## Forced and free branches of `calc` -/

/-- C14 (as stated) fails: at `s = 100`, `h = 255`, `d = 200` the perturbation is
`p = 200`, both `255 - p < s` and `p > s` hold, and for either outcome of the draw
`calc` returns 156, which is neither `s - p = -100` nor `s + p = 300`. -/
theorem calc_forced_counterexample :
    Encode.level 255 0 200 = 200 ∧ 255 - 200 < 100 ∧ 200 > 100 ∧
    Encode.calc 200 true 100 255 = 156 ∧ Encode.calc 200 false 100 255 = 156 ∧
    ¬ ((156 : Int) = 100 - 200) ∧ ¬ ((156 : Int) = 100 + 200) := by
  decide

/-- C14 (amended). Determinism at saturation: for all bytes `s`, `h`, `d` with
`p = level(h, 0, d)`, if `255 - p < s` or `p > s` then `calc(s, h)` is the same for
both outcomes of the draw.  When `255 - p < s` it is the byte `s - p` of `uint8`
arithmetic: the integer `s - p` when `p ≤ s`, and `s - p + 256` when also `p > s`.
When `p > s` and not `255 - p < s` it is `s + p`, which is then at most 255.
Otherwise the two outcomes are `s - p` and `s + p`, both lie in `[0, 255]`, and
they are equal only when `p = 0`. -/
theorem calc_determinism (d s h : Nat) (hs : s < 256) (hh : h < 256) (hd : d < 256) :
    (255 - Encode.level h 0 d < s ∨ Encode.level h 0 d > s →
      Encode.calc d true s h = Encode.calc d false s h) ∧
    (255 - Encode.level h 0 d < s →
      (∀ coin, Encode.calc d coin s h = u8sub s (Encode.level h 0 d)) ∧
      (Encode.level h 0 d ≤ s → u8sub s (Encode.level h 0 d) + Encode.level h 0 d = s) ∧
      (Encode.level h 0 d > s →
        u8sub s (Encode.level h 0 d) + Encode.level h 0 d = s + 256)) ∧
    (¬ (255 - Encode.level h 0 d < s) → Encode.level h 0 d > s →
      (∀ coin, Encode.calc d coin s h = u8add s (Encode.level h 0 d)) ∧
      u8add s (Encode.level h 0 d) = s + Encode.level h 0 d ∧
      s + Encode.level h 0 d ≤ 255) ∧
    (¬ (255 - Encode.level h 0 d < s ∨ Encode.level h 0 d > s) →
      Encode.calc d true s h + Encode.level h 0 d = s ∧
      Encode.calc d false s h = s + Encode.level h 0 d ∧
      s + Encode.level h 0 d ≤ 255 ∧ Encode.level h 0 d ≤ s ∧
      (Encode.calc d true s h = Encode.calc d false s h ↔ Encode.level h 0 d = 0)) := by
  have hp := encode_level_le h d hh hd
  have hc : ∀ coin, Encode.calc d coin s h =
      if 255 - Encode.level h 0 d < s then
        (if Encode.level h 0 d ≤ s then s - Encode.level h 0 d
         else s + 256 - Encode.level h 0 d)
      else if s < Encode.level h 0 d then s + Encode.level h 0 d
      else if coin then s - Encode.level h 0 d
      else s + Encode.level h 0 d := fun coin => encode_calc_eq d coin s h hs
  rw [hc true, hc false]
  simp only [hc]
  unfold u8sub u8add
  generalize Encode.level h 0 d = p at hp ⊢
  simp only [if_true, Bool.false_eq_true, if_false]
  refine ⟨?_, ?_, ?_, ?_⟩
  · intro h1
    split_ifs
    all_goals omega
  · intro h1
    refine ⟨fun coin => ?_, ?_, ?_⟩
    · rw [if_pos h1]
      split_ifs
      all_goals omega
    · intro h2
      omega
    · intro h2
      omega
  · intro h1 h2
    refine ⟨fun coin => ?_, ?_, ?_⟩
    · rw [if_neg h1, if_pos (by omega)]
      omega
    · omega
    · omega
  · intro h1
    split_ifs
    all_goals omega

/-- C14 (amended) at `s = 100`, `h = 255`, `d = 200`, where the subtraction is
forced. -/
theorem calc_determinism_witness :
    Encode.calc 200 true 100 255 = Encode.calc 200 false 100 255 :=
  (calc_determinism 200 100 255 (by decide) (by decide) (by decide)).1 (by decide)

/-! ## The no-wrap threshold -/

theorem encode_calcInt_eq (depth : Nat) (coin : Bool) (s h : Nat) :
    Encode.calcInt depth coin s h =
      if 255 - Encode.level h 0 depth < s then (s : Int) - (Encode.level h 0 depth : Int)
      else if s < Encode.level h 0 depth then (s : Int) + (Encode.level h 0 depth : Int)
      else if coin then (s : Int) - (Encode.level h 0 depth : Int)
      else (s : Int) + (Encode.level h 0 depth : Int) := by
  have hp := encode_level_lt h 0 depth
  unfold Encode.calcInt u8sub
  generalize Encode.level h 0 depth = p at hp ⊢
  simp only []
  split_ifs <;> omega

/-- C17. No-wrap threshold: for all bytes `s`, `h`, `d` and either outcome of the
draw, with `p = level(h, 0, d)`, the byte `calc(s, h)` differs from the unbounded
result of the same sum or difference exactly when `255 - p < s < p`, which requires
`p ≥ 129`; hence for `d ≤ 128` there is no wraparound and `|calc(s, h) - s| = p`. -/
theorem calc_wrap_threshold (d : Nat) (coin : Bool) (s h : Nat) (hs : s < 256) (hh : h < 256)
    (hd : d < 256) :
    ((Encode.calc d coin s h : Int) ≠ Encode.calcInt d coin s h ↔
      255 - Encode.level h 0 d < s ∧ s < Encode.level h 0 d) ∧
    (255 - Encode.level h 0 d < s ∧ s < Encode.level h 0 d → 129 ≤ Encode.level h 0 d) ∧
    (d ≤ 128 →
      (Encode.calc d coin s h : Int) = Encode.calcInt d coin s h ∧
      (Encode.calc d coin s h = s + Encode.level h 0 d ∨
        Encode.calc d coin s h + Encode.level h 0 d = s)) := by
  have hp := encode_level_le h d hh hd
  rw [encode_calc_eq d coin s h hs, encode_calcInt_eq d coin s h]
  generalize Encode.level h 0 d = p at hp ⊢
  refine ⟨?_, by omega, ?_⟩
  · split_ifs <;> omega
  · intro h128
    split_ifs <;> omega

/-- C17 at `s = 100`, `h = 255`, `d = 200`, where the byte wraps. -/
theorem calc_wrap_threshold_witness :
    (Encode.calc 200 true 100 255 : Int) ≠ Encode.calcInt 200 true 100 255 ↔
      255 - Encode.level 255 0 200 < 100 ∧ 100 < Encode.level 255 0 200 :=
  (calc_wrap_threshold 200 true 100 255 (by decide) (by decide) (by decide)).1

/-! ## The lossy round trip below depth 129 -/

/-- C18. The lossy round trip is one-sided and exact at the extremes: for every
depth `d` in `1..128`, all bytes `s`, `h` and either outcome of the draw, the value
`rec` that `Decode` reconstructs from `calc(s, h)` and `s`, which is
`|calc(s, h) - s| * 255 / d` rounded down, satisfies `rec ≤ h` and
`h - rec < 255 / d + 1` (that is, `(h - rec) * d < 255 + d`), with `rec = 0` for
`h = 0` and `rec = 255` for `h = 255`. -/
theorem roundtrip_one_sided (d : Nat) (coin : Bool) (s h : Nat) (hs : s < 256) (hh : h < 256)
    (hd0 : 1 ≤ d) (hd : d ≤ 128) :
    Decode.level d (Decode.abs ((s : Int) - (Encode.calc d coin s h : Int))) 0 255
      = Decode.abs ((Encode.calc d coin s h : Int) - (s : Int)) * 255 / d ∧
    Decode.level d (Decode.abs ((s : Int) - (Encode.calc d coin s h : Int))) 0 255 ≤ h ∧
    (h - Decode.level d (Decode.abs ((s : Int) - (Encode.calc d coin s h : Int))) 0 255) * d
      < 255 + d ∧
    (h = 0 →
      Decode.level d (Decode.abs ((s : Int) - (Encode.calc d coin s h : Int))) 0 255 = 0) ∧
    (h = 255 →
      Decode.level d (Decode.abs ((s : Int) - (Encode.calc d coin s h : Int))) 0 255 = 255) := by
  have hd' : d < 256 := by omega
  have hp2 := encode_level_le h d hh hd'
  have hb := encode_level_bounds h d hh hd'
  have hcl := encode_calc_lt d coin s h
  have hc : Decode.abs ((s : Int) - (Encode.calc d coin s h : Int)) = Encode.level h 0 d := by
    rw [decode_abs_sub s _ hs hcl, encode_calc_eq d coin s h hs]
    split_ifs <;> omega
  have hc' : Decode.abs ((Encode.calc d coin s h : Int) - (s : Int)) = Encode.level h 0 d := by
    rw [decode_abs_sub _ s hcl hs, encode_calc_eq d coin s h hs]
    split_ifs <;> omega
  have h0 : h = 0 → Encode.level h 0 d = 0 := fun he => by
    rw [he]; exact encode_level_zero d hd'
  have h255 : h = 255 → Encode.level h 0 d = d := fun he => by
    rw [he]; exact encode_level_255 d hd'
  rw [hc, hc', decode_level_eq d _ hp2 (by omega) hd']
  generalize Encode.level h 0 d = p at hp2 hb h0 h255
  have e1 := Nat.div_add_mod (p * 255) d
  have e2 := Nat.mod_lt (p * 255) (by omega : 0 < d)
  have hle : p * 255 / d ≤ h := by
    apply Nat.div_le_of_le_mul
    have : d * h = h * d := Nat.mul_comm d h
    omega
  refine ⟨rfl, hle, ?_, ?_, ?_⟩
  · have e3 : (h - p * 255 / d) * d = h * d - d * (p * 255 / d) := by
      rw [Nat.sub_mul, Nat.mul_comm (p * 255 / d) d]
    have e4 : d * (p * 255 / d) ≤ h * d := by
      have := Nat.mul_le_mul_left d hle
      rw [Nat.mul_comm d h] at this
      exact this
    omega
  · intro he
    rw [h0 he]
    simp
  · intro he
    rw [h255 he]
    exact Nat.mul_div_cancel_left 255 (by omega)

/-- C18 at `d = 10`, `s = 128`, `h = 139`. -/
theorem roundtrip_one_sided_witness :
    Decode.level 10 (Decode.abs ((128 : Nat) - (Encode.calc 10 true 128 139 : Nat) : Int)) 0 255
      ≤ 139 :=
  (roundtrip_one_sided 10 true 128 139 (by decide) (by decide) (by decide) (by decide)).2.1

/-! ## The frame of the marker write -/

/-- C15. Marker overwrite frame: in `Encode` on a non-empty source, the
depth-marker step is one write, at the index of the red byte of the bottom-right
pixel; every other byte of the result (every byte of every other pixel, and the
green, blue and alpha bytes of the bottom-right pixel) is the byte the per-pixel
pass wrote, and the length, stride and rectangle are those of the buffer the pass
filled. -/
theorem marker_frame (procs : Int) (coin : Nat → Bool) (mcoin : Bool) (source hidden : Image)
    (d : Nat) (hne : source.Bounds.Empty = false) :
    (Encode procs coin mcoin source hidden d).Pix =
      (Encode.pass procs d coin (cloneAsRGBA source) (cloneWithBounds hidden source.Bounds)
        source.Bounds.Dx source.Bounds.Dy (NewRGBA source.Bounds).Pix).set
        (markerIndex source.Bounds.Dx source.Bounds.Dy)
        (Encode.calc d mcoin ((cloneAsRGBA source).Pix.getD
          (markerIndex source.Bounds.Dx source.Bounds.Dy) 0) 255) ∧
    markerIndex source.Bounds.Dx source.Bounds.Dy =
      ((source.Bounds.Dy - 1) * (cloneAsRGBA source).Stride + (source.Bounds.Dx - 1) * 4
        + 0).toNat ∧
    (∀ i, i ≠ markerIndex source.Bounds.Dx source.Bounds.Dy →
      (Encode procs coin mcoin source hidden d).Pix[i]? =
        (Encode.pass procs d coin (cloneAsRGBA source) (cloneWithBounds hidden source.Bounds)
          source.Bounds.Dx source.Bounds.Dy (NewRGBA source.Bounds).Pix)[i]?) ∧
    (∀ c, 1 ≤ c → c ≤ 3 →
      (Encode procs coin mcoin source hidden d).Pix[
          markerIndex source.Bounds.Dx source.Bounds.Dy + c]? =
        (Encode.pass procs d coin (cloneAsRGBA source) (cloneWithBounds hidden source.Bounds)
          source.Bounds.Dx source.Bounds.Dy (NewRGBA source.Bounds).Pix)[
          markerIndex source.Bounds.Dx source.Bounds.Dy + c]?) ∧
    (Encode procs coin mcoin source hidden d).Pix.length =
      (Encode.pass procs d coin (cloneAsRGBA source) (cloneWithBounds hidden source.Bounds)
        source.Bounds.Dx source.Bounds.Dy (NewRGBA source.Bounds).Pix).length ∧
    (Encode procs coin mcoin source hidden d).Stride = (NewRGBA source.Bounds).Stride ∧
    (Encode procs coin mcoin source hidden d).Rect = (NewRGBA source.Bounds).Rect := by
  have hpix : (Encode procs coin mcoin source hidden d).Pix =
      (Encode.pass procs d coin (cloneAsRGBA source) (cloneWithBounds hidden source.Bounds)
        source.Bounds.Dx source.Bounds.Dy (NewRGBA source.Bounds).Pix).set
        (markerIndex source.Bounds.Dx source.Bounds.Dy)
        (Encode.calc d mcoin ((cloneAsRGBA source).Pix.getD
          (markerIndex source.Bounds.Dx source.Bounds.Dy) 0) 255) := by
    have hr : (cloneAsRGBA source).Rect = source.Bounds := rfl
    simp only [Encode, hr, hne, Bool.false_eq_true, if_false, pixSet, pixGet]
    rfl
  have hst := (encode_fields procs coin mcoin source hidden d hne).2.1
  have hre := (encode_fields procs coin mcoin source hidden d hne).1
  refine ⟨hpix, rfl, ?_, ?_, ?_, hst, hre⟩
  · intro i hi
    rw [hpix]
    exact List.getElem?_set_ne (fun hc => hi hc.symm)
  · intro c h1 _
    rw [hpix]
    exact List.getElem?_set_ne (by omega)
  · rw [hpix]
    exact List.length_set _ _ _

/-- C15 at the 2x2 gray source: byte 13, the green byte of the bottom-right
pixel. -/
theorem marker_frame_witness :
    (Encode 4 (fun _ => true) false graySource whiteHidden 10).Pix[13]? =
      (Encode.pass 4 10 (fun _ => true) (cloneAsRGBA graySource)
        (cloneWithBounds whiteHidden graySource.Bounds)
        graySource.Bounds.Dx graySource.Bounds.Dy (NewRGBA graySource.Bounds).Pix)[13]? :=
  (marker_frame 4 (fun _ => true) false graySource whiteHidden 10 (by decide)).2.2.1 13
    (by decide)

/-! ## The partition policy -/

/-- Fuel beyond `i` does not change the loop: it has ended by then. -/
theorem parallel_loop_fuel (ps : Int) (hps : 0 < ps) :
    ∀ (fuel : Nat) (i : Int), i.toNat ≤ fuel → ∀ extra : Nat,
      parallel.loop ps (fuel + extra) i = parallel.loop ps fuel i := by
  intro fuel
  induction fuel with
  | zero =>
    intro i hi extra
    cases extra with
    | zero => rfl
    | succ e =>
      have h0 : ¬ i > 0 := by omega
      simp only [Nat.zero_add]
      unfold parallel.loop
      rw [if_neg h0]
  | succ f ih =>
    intro i hi extra
    have he : f + 1 + extra = (f + extra) + 1 := by omega
    rw [he]
    unfold parallel.loop
    by_cases h0 : i > 0
    · rw [if_pos h0, if_pos h0]
      simp only []
      rw [ih (i - ps) (by omega) extra]
    · rw [if_neg h0, if_neg h0]

/-- The number of dispatches `n` from `i > 0` satisfies `(n - 1) * ps < i ≤ n * ps`. -/
theorem parallel_loop_length (ps : Int) (hps : 0 < ps) :
    ∀ (fuel : Nat) (i : Int), i.toNat ≤ fuel →
      (i ≤ 0 → (parallel.loop ps fuel i).length = 0) ∧
      (0 < i → (((parallel.loop ps fuel i).length : Int) - 1) * ps < i ∧
        i ≤ ((parallel.loop ps fuel i).length : Int) * ps) := by
  intro fuel
  induction fuel with
  | zero =>
    intro i hi
    refine ⟨fun _ => rfl, fun h0 => ?_⟩
    omega
  | succ f ih =>
    intro i hi
    unfold parallel.loop
    by_cases h0 : i > 0
    · rw [if_pos h0]
      simp only [List.length_cons]
      refine ⟨fun hc => by omega, fun _ => ?_⟩
      obtain ⟨ih0, ih1⟩ := ih (i - ps) (by omega)
      by_cases h1 : i - ps ≤ 0
      · rw [ih0 h1]
        simp only [Nat.zero_add, Nat.cast_one]
        omega
      · obtain ⟨a, b⟩ := ih1 (by omega)
        push_cast
        generalize ((parallel.loop ps f (i - ps)).length : Int) = n at a b ⊢
        have e1 : (((n : Int) + 1 : Int) - 1) * ps = n * ps := by ring
        have e2 : ((n : Int) + 1) * ps = n * ps + ps := by ring
        have e3 : ((n : Int) - 1) * ps = n * ps - ps := by ring
        rw [e1, e2]
        rw [e3] at a
        omega
    · rw [if_neg h0]
      refine ⟨fun _ => rfl, fun hc => absurd hc h0⟩

/-- Every dispatched range has length `ps`, unless its start was clamped to 0. -/
theorem parallel_loop_size (ps : Int) :
    ∀ (fuel : Nat) (i : Int) (r : Int × Int), r ∈ parallel.loop ps fuel i →
      r.2 - r.1 = ps ∨ (r.1 = 0 ∧ r.2 - r.1 < ps) := by
  intro fuel
  induction fuel with
  | zero => intro i r hr; simp [parallel.loop] at hr
  | succ f ih =>
    intro i r hr
    unfold parallel.loop at hr
    split_ifs at hr with hi
    · simp only [List.mem_cons] at hr
      rcases hr with h | h
      · subst h
        simp only []
        split_ifs <;> omega
      · exact ih (i - ps) r h
    · simp at hr

/-- The starts of the ranges strictly decrease in dispatch order. -/
theorem parallel_ranges_descending (procs height : Int) (hH : 0 ≤ height) :
    (parallel.ranges procs height).Pairwise (fun r s => s.1 < r.1) := by
  by_cases h : procs ≤ 1 ∨ Int.tdiv height procs < procs
  · unfold parallel.ranges
    simp only [h, if_true]
    exact List.pairwise_singleton _ _
  · have hs := parallel_ranges_sorted procs height
    have hm : ∀ s ∈ parallel.ranges procs height, s.1 < s.2 := by
      intro s hs'
      unfold parallel.ranges at hs'
      simp only [h, if_false] at hs'
      exact (parallel_loop_mem _ (parallel_partSize_pos procs height h) _ _ s hs').2.1
    have hH' := hH
    refine List.Pairwise.imp_of_mem ?_ hs
    intro r s _ hs' hrs
    have := hm s hs'
    omega

/-- C16. Partition policy: for every `H ≥ 0` and `P ≥ 1` with `partSize = H / P`, if
`P ≤ 1` or `partSize < P` then `parallel` makes the single call `fn(0, H)`.
Otherwise `partSize ≥ 2`; the backward loop ends (more fuel than `H` yields the
same calls) after `n` dispatches, `n` being `H / partSize` rounded up:
`(n - 1) * partSize < H ≤ n * partSize`; every dispatched range has length
`partSize` except possibly one whose start is clamped to 0; and the starts
strictly decrease in dispatch order. -/
theorem partition_policy (procs height : Int) (_hP : 1 ≤ procs) (hH : 0 ≤ height) :
    (procs ≤ 1 ∨ Int.tdiv height procs < procs →
      parallel procs height (fun start end_ calls => calls ++ [(start, end_)]) []
        = [(0, height)]) ∧
    (¬ (procs ≤ 1 ∨ Int.tdiv height procs < procs) →
      2 ≤ Int.tdiv height procs ∧
      parallel procs height (fun start end_ calls => calls ++ [(start, end_)]) []
        = parallel.loop (Int.tdiv height procs) height.toNat height ∧
      (∀ extra : Nat,
        parallel.loop (Int.tdiv height procs) (height.toNat + extra) height
          = parallel.loop (Int.tdiv height procs) height.toNat height) ∧
      (((parallel procs height
          (fun start end_ calls => calls ++ [(start, end_)]) []).length : Int) - 1)
          * Int.tdiv height procs < height ∧
      height ≤ ((parallel procs height
          (fun start end_ calls => calls ++ [(start, end_)]) []).length : Int)
          * Int.tdiv height procs ∧
      ((parallel procs height
          (fun start end_ calls => calls ++ [(start, end_)]) []).length : Int)
          = (height + Int.tdiv height procs - 1) / Int.tdiv height procs ∧
      (∀ r ∈ parallel procs height (fun start end_ calls => calls ++ [(start, end_)]) [],
        r.2 - r.1 = Int.tdiv height procs ∨
          (r.1 = 0 ∧ r.2 - r.1 < Int.tdiv height procs))) ∧
    (parallel procs height (fun start end_ calls => calls ++ [(start, end_)]) []).Pairwise
      (fun r s => s.1 < r.1) := by
  rw [parallel_calls procs height]
  refine ⟨?_, ?_, parallel_ranges_descending procs height hH⟩
  · intro h
    unfold parallel.ranges
    simp only [h, if_true]
  · intro h
    have hps := parallel_partSize_pos procs height h
    have hr : parallel.ranges procs height
        = parallel.loop (Int.tdiv height procs) height.toNat height := by
      unfold parallel.ranges
      simp only [h, if_false]
    have hpos : 0 < height := by
      by_contra hc
      have h0 : height = 0 := by omega
      rw [h0] at hps
      simp at hps
    have hlen := (parallel_loop_length _ hps height.toNat height (le_refl _)).2 hpos
    rw [hr]
    refine ⟨by omega, rfl, parallel_loop_fuel _ hps _ _ (le_refl _), hlen.1, hlen.2, ?_,
      fun r hr' => parallel_loop_size _ _ _ r hr'⟩
    generalize ((parallel.loop (Int.tdiv height procs) height.toNat height).length : Int) = n
      at hlen
    generalize Int.tdiv height procs = ps at hps hlen
    apply le_antisymm
    · rw [Int.le_ediv_iff_mul_le hps]
      have e3 : (n - 1) * ps = n * ps - ps := by ring
      rw [e3] at hlen
      omega
    · have : (height + ps - 1) / ps < n + 1 := by
        rw [Int.ediv_lt_iff_lt_mul hps]
        have e2 : (n + 1) * ps = n * ps + ps := by ring
        rw [e2]
        omega
      omega

/-- C16 at `P = 4`, `H = 18`: part size 4, five dispatches. -/
theorem partition_policy_witness :
    2 ≤ Int.tdiv 18 4 ∧
    parallel 4 18 (fun start end_ calls => calls ++ [(start, end_)]) []
      = parallel.loop (Int.tdiv 18 4) (18 : Int).toNat 18 :=
  ⟨((partition_policy 4 18 (by decide) (by decide)).2.1 (by decide)).1,
   ((partition_policy 4 18 (by decide) (by decide)).2.1 (by decide)).2.1⟩

/-! ## Index safety -/

theorem newRGBA_length (b : Rectangle) :
    (NewRGBA b).Pix.length = (4 * b.Dx * b.Dy).toNat := by
  simp [NewRGBA]

/-- C19. Index safety: for a first image of width `w ≥ 1` and height `h ≥ 1`, the
clone of the first image, the aligned clone of the second image and the output
buffer each hold `4 * w * h` bytes with stride `4 * w`; every index the per-pixel
passes of `Encode` and `Decode` read or write, `y * stride + x * 4 + c` for
`0 ≤ y < h`, `0 ≤ x < w`, `0 ≤ c ≤ 3`, and the marker index
`(h - 1) * stride + (w - 1) * 4`, is at least 0 and below `4 * w * h`; and the rows
`parallel` hands to a pass lie in `[0, h)`.  So no access is out of range. -/
theorem index_safety (first second : Image) (hne : first.Bounds.Empty = false) :
    1 ≤ first.Bounds.Dx ∧ 1 ≤ first.Bounds.Dy ∧
    (cloneAsRGBA first).Pix.length = (4 * first.Bounds.Dx * first.Bounds.Dy).toNat ∧
    (cloneWithBounds second first.Bounds).Pix.length
      = (4 * first.Bounds.Dx * first.Bounds.Dy).toNat ∧
    (NewRGBA first.Bounds).Pix.length = (4 * first.Bounds.Dx * first.Bounds.Dy).toNat ∧
    (cloneAsRGBA first).Stride = 4 * first.Bounds.Dx ∧
    (cloneWithBounds second first.Bounds).Stride = 4 * first.Bounds.Dx ∧
    (NewRGBA first.Bounds).Stride = 4 * first.Bounds.Dx ∧
    (∀ y x c : Int, 0 ≤ y → y < first.Bounds.Dy → 0 ≤ x → x < first.Bounds.Dx →
      0 ≤ c → c ≤ 3 →
      0 ≤ y * (cloneAsRGBA first).Stride + x * 4 + c ∧
      y * (cloneAsRGBA first).Stride + x * 4 + c < 4 * first.Bounds.Dx * first.Bounds.Dy ∧
      (y * (cloneAsRGBA first).Stride + x * 4 + c).toNat < (cloneAsRGBA first).Pix.length ∧
      (y * (cloneAsRGBA first).Stride + x * 4 + c).toNat
        < (cloneWithBounds second first.Bounds).Pix.length ∧
      (y * (cloneAsRGBA first).Stride + x * 4 + c).toNat < (NewRGBA first.Bounds).Pix.length) ∧
    0 ≤ (first.Bounds.Dy - 1) * (cloneWithBounds second first.Bounds).Stride
        + (first.Bounds.Dx - 1) * 4 + 0 ∧
    (first.Bounds.Dy - 1) * (cloneWithBounds second first.Bounds).Stride
        + (first.Bounds.Dx - 1) * 4 + 0 < 4 * first.Bounds.Dx * first.Bounds.Dy ∧
    markerIndex first.Bounds.Dx first.Bounds.Dy < (cloneAsRGBA first).Pix.length ∧
    markerIndex first.Bounds.Dx first.Bounds.Dy
      < (cloneWithBounds second first.Bounds).Pix.length ∧
    markerIndex first.Bounds.Dx first.Bounds.Dy < (NewRGBA first.Bounds).Pix.length ∧
    (∀ (procs : Int) (r : Int × Int), r ∈ parallel.ranges procs first.Bounds.Dy →
      ∀ y, r.1 ≤ y → y < r.2 → 0 ≤ y ∧ y < first.Bounds.Dy) := by
  obtain ⟨hw, hh⟩ := (empty_false_iff _).mp hne
  have l1 : (cloneAsRGBA first).Pix.length = (4 * first.Bounds.Dx * first.Bounds.Dy).toNat := by
    rw [cloneAs_eq]; exact clone_length _ _
  have l2 := clone_length second first.Bounds
  have l3 := newRGBA_length first.Bounds
  have s1 : (cloneAsRGBA first).Stride = 4 * first.Bounds.Dx := rfl
  have s2 : (cloneWithBounds second first.Bounds).Stride = 4 * first.Bounds.Dx := rfl
  have hm := marker_lt first.Bounds.Dx first.Bounds.Dy hw hh
  have hmp := pos_bounds first.Bounds.Dx first.Bounds.Dy (first.Bounds.Dx - 1)
    (first.Bounds.Dy - 1) (by omega) (by omega) (by omega) (by omega)
  refine ⟨by omega, by omega, l1, l2, l3, s1, s2, rfl, ?_, ?_, ?_, ?_, ?_, ?_, ?_⟩
  · intro y x c hy0 hy hx0 hx hc0 hc
    have hp := pos_bounds first.Bounds.Dx first.Bounds.Dy x y hx0 hx hy0 hy
    rw [s1, l1, l2, l3]
    refine ⟨by omega, by omega, by omega, by omega, by omega⟩
  · rw [s2]; omega
  · rw [s2]; omega
  · rw [l1]; exact hm.1
  · rw [l2]; exact hm.1
  · rw [l3]; exact hm.1
  · intro procs r hr y h1 h2
    have := parallel_ranges_mem procs first.Bounds.Dy (by omega) r hr
    omega

/-- C19 at the 2x2 gray source: the alpha byte of the bottom-right pixel has
index 15, below the 16 bytes of the buffers. -/
theorem index_safety_witness :
    (1 * (cloneAsRGBA graySource).Stride + 1 * 4 + 3).toNat
      < (NewRGBA graySource.Bounds).Pix.length :=
  ((index_safety graySource whiteHidden (by decide)).2.2.2.2.2.2.2.2.1 1 1 3 (by decide)
    (by decide) (by decide) (by decide) (by decide) (by decide)).2.2.2.2

end Phn
